import Mathlib

/-!
# Verification of the 3dsMax pipeline metadata codec and namespace allocator

Shallow embedding of `openpype/hosts/max/api/lib.py`:

* `imprint` (metadata encode), `read` (metadata decode),
* `lsattr` (attribute scanner over the scene tree),
* `unique_namespace` (namespace allocator), `get_namespace`.

Python values that flow through the codec (strings, booleans, integers,
JSON-serializable lists/dicts, None) are modelled by `PyValue`.  The Python
standard-library `json.dumps` / `json.loads` pair (an external collaborator of
the code under verification) is modelled concretely by `dumpV` / `loadsChars`
below, mirroring `json.dumps` defaults (separators `", "` / `": "`,
`ensure_ascii=True`) and the strict RFC-style parser used by `json.loads`
(integers only; floats are out of scope of this development).

The host application's property store (`SetUserProp` / `GetUserPropBuffer`)
is not part of the repository; it is modelled from the spec (one
`key=value` line per property, joined by CRLF).
-/

namespace MaxLib

/-! ## Character utilities -/

/-- Whitespace characters stripped by Python's `str.strip()` (ASCII part). -/
def pyWs (c : Char) : Bool :=
  c == ' ' || c == '\t' || c == '\n' || c == '\r' || c == '\x0b' || c == '\x0c'

/-- JSON (RFC 8259) insignificant whitespace, as accepted by `json.loads`. -/
def jsonWs (c : Char) : Bool :=
  c == ' ' || c == '\t' || c == '\n' || c == '\r'

def isDigitC (c : Char) : Bool := '0' ≤ c && c ≤ '9'

def digitChar (n : Nat) : Char := Char.ofNat (48 + n)

def digitVal (c : Char) : Nat := c.toNat - 48

/-- Lowercase hex digit, as produced by Python's `\uXXXX` escapes. -/
def hexDigitChar (n : Nat) : Char :=
  if n < 10 then Char.ofNat (48 + n) else Char.ofNat (87 + n)

def isHexC (c : Char) : Bool :=
  isDigitC c || ('a' ≤ c && c ≤ 'f') || ('A' ≤ c && c ≤ 'F')

def hexVal (c : Char) : Nat :=
  if isDigitC c then c.toNat - 48
  else if 'a' ≤ c && c ≤ 'f' then c.toNat - 87
  else c.toNat - 55

/-- Python `str.strip()` on a character list. -/
def stripC (l : List Char) : List Char :=
  ((l.dropWhile pyWs).reverse.dropWhile pyWs).reverse

/-- Python `s.split("\r\n")`: greedy left-to-right split on the two-character
separator, keeping empty pieces. -/
def splitCRLF : List Char → List (List Char)
  | [] => [[]]
  | [c] => [[c]]
  | c :: c2 :: rest =>
    if c = '\r' ∧ c2 = '\n' then [] :: splitCRLF rest
    else
      match splitCRLF (c2 :: rest) with
      | l :: ls => (c :: l) :: ls
      | [] => [[c]]

/-- Python `s.split(sep)` for a one-character separator. -/
def splitOnChar (sep : Char) : List Char → List (List Char)
  | [] => [[]]
  | c :: rest =>
    if c == sep then [] :: splitOnChar sep rest
    else
      match splitOnChar sep rest with
      | l :: ls => (c :: l) :: ls
      | [] => [[c]]

/-- Does the character list contain a CR-LF pair? -/
def hasCRLF : List Char → Bool
  | [] => false
  | [_] => false
  | c :: c2 :: rest => (c == '\r' && c2 == '\n') || hasCRLF (c2 :: rest)

/-! ## Decimal rendering of integers (Python `str(int)`) -/

/-- Digits of `n`, most significant first, prepended to `acc`.  The fuel is
structural (any fuel at least `n` gives the decimal digits; the fuel-0
fallback only fires at `n = 0`, where it agrees). -/
def natToCharsFuel : Nat → Nat → List Char → List Char
  | 0, n, acc => digitChar n :: acc
  | fuel + 1, n, acc =>
    if n < 10 then digitChar n :: acc
    else natToCharsFuel fuel (n / 10) (digitChar (n % 10) :: acc)

def natToChars (n : Nat) : List Char := natToCharsFuel n n []

def intToChars : Int → List Char
  | .ofNat n => natToChars n
  | .negSucc m => '-' :: natToChars (m + 1)

/-! ## The value model -/

/-- Model of the Python values flowing through the codec: strings, booleans,
integers, `None`, and JSON-structured lists / string-keyed dicts. -/
inductive PyValue where
  | vstr (s : String)
  | vbool (b : Bool)
  | vint (n : Int)
  | vnone
  | vlist (xs : List PyValue)
  | vdict (fs : List (String × PyValue))

/-- Python's `value == "true"`-style comparison of a decoded value against a
string literal (non-strings never equal a string). -/
def isStrLit (v : PyValue) (s : String) : Bool :=
  match v with
  | .vstr t => t == s
  | _ => false

/-! ## JSON serialization (model of Python `json.dumps`, default options) -/

/-- 4-digit lowercase hex, as in Python's `\uXXXX` escapes. -/
def hex4 (n : Nat) : List Char :=
  [hexDigitChar (n / 4096 % 16), hexDigitChar (n / 256 % 16),
   hexDigitChar (n / 16 % 16), hexDigitChar (n % 16)]

/-- `json.dumps` escaping of one string character (`ensure_ascii=True`):
shortcut escapes, literal printable ASCII, `\uXXXX` otherwise (surrogate
pairs above the BMP). -/
def escChar (c : Char) : List Char :=
  if c = '"' then ['\\', '"']
  else if c = '\\' then ['\\', '\\']
  else if c = '\n' then ['\\', 'n']
  else if c = '\r' then ['\\', 'r']
  else if c = '\t' then ['\\', 't']
  else if c = '\x08' then ['\\', 'b']
  else if c = '\x0c' then ['\\', 'f']
  else if 0x20 ≤ c.toNat ∧ c.toNat ≤ 0x7e then [c]
  else if c.toNat < 0x10000 then '\\' :: 'u' :: hex4 c.toNat
  else
    '\\' :: 'u' :: hex4 (0xd800 + (c.toNat - 0x10000) / 0x400) ++
      '\\' :: 'u' :: hex4 (0xdc00 + (c.toNat - 0x10000) % 0x400)

def escBody : List Char → List Char
  | [] => []
  | c :: rest => escChar c ++ escBody rest

/-- `json.dumps` of a string (with the surrounding quotes). -/
def escString (s : String) : List Char := '"' :: escBody s.data ++ ['"']

mutual

/-- Model of `json.dumps(v)` with default separators `", "` and `": "`. -/
def dumpV : PyValue → List Char
  | .vnone => ['n', 'u', 'l', 'l']
  | .vbool true => ['t', 'r', 'u', 'e']
  | .vbool false => ['f', 'a', 'l', 's', 'e']
  | .vint n => intToChars n
  | .vstr s => escString s
  | .vlist [] => ['[', ']']
  | .vlist (x :: xs) => '[' :: (dumpV x ++ dumpElems xs) ++ [']']
  | .vdict [] => ['\x7b', '\x7d']
  | .vdict (f :: fs) => '\x7b' :: (dumpMember f ++ dumpMembers fs) ++ ['\x7d']

def dumpMember : String × PyValue → List Char
  | (k, v) => escString k ++ ':' :: ' ' :: dumpV v

def dumpElems : List PyValue → List Char
  | [] => []
  | x :: xs => ',' :: ' ' :: dumpV x ++ dumpElems xs

def dumpMembers : List (String × PyValue) → List Char
  | [] => []
  | f :: fs => ',' :: ' ' :: dumpMember f ++ dumpMembers fs

end

/-! ## JSON parsing (model of Python `json.loads`, strict mode) -/

/-- Skip insignificant JSON whitespace. -/
def skipWs (cs : List Char) : List Char := cs.dropWhile jsonWs

/-- Parse the body of a JSON string (opening quote already consumed), with
strict rejection of raw control characters and `\uXXXX` surrogate-pair
recombination.  Lone surrogate escapes are rejected (they denote no Unicode
scalar value and cannot arise from serializing a `PyValue`).  One fuel unit
is spent per produced character, so any fuel above the input length
suffices. -/
def parseStrAux : Nat → List Char → Option (List Char × List Char)
  | 0, _ => none
  | Nat.succ fuel, cs =>
    match cs with
    | [] => none
    | c :: rest =>
      if c = '"' then some ([], rest)
      else if c = '\\' then
        match rest with
        | '"' :: r => (parseStrAux fuel r).map (fun p => ('"' :: p.1, p.2))
        | '\\' :: r => (parseStrAux fuel r).map (fun p => ('\\' :: p.1, p.2))
        | '/' :: r => (parseStrAux fuel r).map (fun p => ('/' :: p.1, p.2))
        | 'b' :: r => (parseStrAux fuel r).map (fun p => ('\x08' :: p.1, p.2))
        | 'f' :: r => (parseStrAux fuel r).map (fun p => ('\x0c' :: p.1, p.2))
        | 'n' :: r => (parseStrAux fuel r).map (fun p => ('\n' :: p.1, p.2))
        | 'r' :: r => (parseStrAux fuel r).map (fun p => ('\r' :: p.1, p.2))
        | 't' :: r => (parseStrAux fuel r).map (fun p => ('\t' :: p.1, p.2))
        | 'u' :: a :: b :: c1 :: d :: r =>
          if isHexC a && isHexC b && isHexC c1 && isHexC d then
            let n := hexVal a * 4096 + hexVal b * 256 + hexVal c1 * 16 + hexVal d
            if 0xd800 ≤ n ∧ n ≤ 0xdbff then
              match r with
              | '\\' :: 'u' :: e :: f :: g :: h :: r2 =>
                if isHexC e && isHexC f && isHexC g && isHexC h then
                  let m := hexVal e * 4096 + hexVal f * 256 + hexVal g * 16 + hexVal h
                  if 0xdc00 ≤ m ∧ m ≤ 0xdfff then
                    (parseStrAux fuel r2).map
                      (fun p =>
                        (Char.ofNat (0x10000 + (n - 0xd800) * 0x400 + (m - 0xdc00)) :: p.1,
                         p.2))
                  else none
                else none
              | _ => none
            else if 0xdc00 ≤ n ∧ n ≤ 0xdfff then none
            else (parseStrAux fuel r).map (fun p => (Char.ofNat n :: p.1, p.2))
          else none
        | _ => none
      else if c.toNat < 0x20 then none
      else (parseStrAux fuel rest).map (fun p => (c :: p.1, p.2))

/-- Accumulate decimal digits (Python int parsing inside `json.loads`). -/
def parseDigitsAux (acc : Nat) : List Char → Nat × List Char
  | [] => (acc, [])
  | c :: rest =>
    if isDigitC c then parseDigitsAux (acc * 10 + digitVal c) rest
    else (acc, c :: rest)

/-- Parse a JSON natural-number literal (leading zeros rejected; a following
fraction or exponent makes the number a float, which this model rejects). -/
def parseNumNat (cs : List Char) : Option (Nat × List Char) :=
  match cs with
  | [] => none
  | c :: rest =>
    if isDigitC c then
      if c = '0' then
        match rest with
        | c2 :: _ =>
          if isDigitC c2 || c2 = '.' || c2 = 'e' || c2 = 'E' then none
          else some (0, rest)
        | [] => some (0, rest)
      else
        match parseDigitsAux (digitVal c) rest with
        | (n, r) =>
          match r with
          | c2 :: _ => if c2 = '.' || c2 = 'e' || c2 = 'E' then none else some (n, r)
          | [] => some (n, r)
    else none

/-- Parse a JSON number (integers only in this model). -/
def parseNum (cs : List Char) : Option (PyValue × List Char) :=
  match cs with
  | [] => none
  | c :: rest =>
    if c = '-' then
      match parseNumNat rest with
      | some (n, r) => some (.vint (-(n : Int)), r)
      | none => none
    else
      match parseNumNat (c :: rest) with
      | some (n, r) => some (.vint (n : Int), r)
      | none => none

mutual

/-- Fueled recursive-descent JSON value parser (model of `json.loads`).
One fuel unit is spent per nesting level, so any fuel at least the input
length suffices. -/
def parseVal : Nat → List Char → Option (PyValue × List Char)
  | 0, _ => none
  | Nat.succ fuel, cs =>
    match cs with
    | [] => none
    | c :: rest =>
      if c = 'n' then
        match rest with
        | 'u' :: 'l' :: 'l' :: r => some (.vnone, r)
        | _ => none
      else if c = 't' then
        match rest with
        | 'r' :: 'u' :: 'e' :: r => some (.vbool true, r)
        | _ => none
      else if c = 'f' then
        match rest with
        | 'a' :: 'l' :: 's' :: 'e' :: r => some (.vbool false, r)
        | _ => none
      else if c = '"' then
        match parseStrAux (rest.length + 1) rest with
        | some (l, r) => some (.vstr ⟨l⟩, r)
        | none => none
      else if c = '[' then
        match skipWs rest with
        | [] => none
        | c2 :: r2 =>
          if c2 = ']' then some (.vlist [], r2)
          else
            match parseElems fuel (c2 :: r2) with
            | some (xs, r3) => some (.vlist xs, r3)
            | none => none
      else if c = '\x7b' then
        match skipWs rest with
        | [] => none
        | c2 :: r2 =>
          if c2 = '\x7d' then some (.vdict [], r2)
          else
            match parseMembers fuel (c2 :: r2) with
            | some (fs, r3) => some (.vdict fs, r3)
            | none => none
      else parseNum (c :: rest)

/-- Parse the non-empty element list of a JSON array, up to and including the
closing bracket. -/
def parseElems : Nat → List Char → Option (List PyValue × List Char)
  | 0, _ => none
  | Nat.succ fuel, cs =>
    match parseVal fuel cs with
    | none => none
    | some (v, r) =>
      match skipWs r with
      | [] => none
      | c2 :: r2 =>
        if c2 = ',' then
          match parseElems fuel (skipWs r2) with
          | some (vs, r3) => some (v :: vs, r3)
          | none => none
        else if c2 = ']' then some ([v], r2)
        else none

/-- Parse the non-empty member list of a JSON object, up to and including the
closing brace. -/
def parseMembers : Nat → List Char → Option (List (String × PyValue) × List Char)
  | 0, _ => none
  | Nat.succ fuel, cs =>
    match cs with
    | '"' :: r0 =>
      match parseStrAux (r0.length + 1) r0 with
      | some (kcs, r1) =>
        match skipWs r1 with
        | [] => none
        | c2 :: r2 =>
          if c2 = ':' then
            match parseVal fuel (skipWs r2) with
            | some (v, r3) =>
              match skipWs r3 with
              | [] => none
              | c3 :: r4 =>
                if c3 = ',' then
                  match parseMembers fuel (skipWs r4) with
                  | some (fs, r5) => some ((⟨kcs⟩, v) :: fs, r5)
                  | none => none
                else if c3 = '\x7d' then some ([(⟨kcs⟩, v)], r4)
                else none
            | none => none
          else none
      | none => none
    | _ => none

end

/-- Model of `json.loads` over a character list: parse one value surrounded
by optional whitespace; anything left over is an error. -/
def loadsChars (cs : List Char) : Option PyValue :=
  match parseVal (cs.length + 1) (skipWs cs) with
  | some (v, r) => if skipWs r = [] then some v else none
  | none => none

/-- Model of `json.loads` on a string. -/
def loads (s : String) : Option PyValue := loadsChars s.data

/-! ## The metadata codec (`imprint` / `read`) -/

def JSON_PREFIX : String := "JSON::"

/-- `value.startswith(JSON_PREFIX)` on the (already stripped) value text. -/
def jsonMarked (v : List Char) : Bool := JSON_PREFIX.data.isPrefixOf v

/-- The JSON-marker step of `read`'s value decoding: on the marker, try to
parse the remainder as JSON, keeping the raw string on failure. -/
def jsonStep (v : List Char) : PyValue :=
  if jsonMarked v then
    match loadsChars (v.drop JSON_PREFIX.length) with
    | some x => x
    | none => .vstr ⟨v⟩
  else .vstr ⟨v⟩

/-- The maxscript boolean-literal coercion of `read`. -/
def coerceBool (j : PyValue) : PyValue :=
  if isStrLit j "true" then .vbool true
  else if isStrLit j "false" then .vbool false
  else j

/-- Decoding of a single property value, exactly as in `read`:
strip, try JSON on the marker (failure keeps the raw string), then the
maxscript boolean-literal coercion. -/
def decodeText (raw : List Char) : PyValue :=
  coerceBool (jsonStep (stripC raw))

/-- Python-dict assignment on an insertion-ordered association list:
an existing key keeps its position and gets the new value, a new key is
appended. -/
def dictInsert (d : List (String × PyValue)) (k : String) (v : PyValue) :
    List (String × PyValue) :=
  if d.any (fun p => p.1 == k) then
    d.map (fun p => if p.1 == k then (k, v) else p)
  else d ++ [(k, v)]

/-- Mapping lookup in the decoded result. -/
def lookupD (d : List (String × PyValue)) (k : String) : Option PyValue :=
  (d.find? (fun p => p.1 == k)).map (fun p => p.2)

/-- One line of the decode loop of `read`: split on `=`, require exactly one
separator, strip the key, decode the value, assign into the dict. -/
def readLine (d : List (String × PyValue)) (line : List Char) :
    List (String × PyValue) :=
  match splitOnChar '=' line with
  | [k, v] => dictInsert d ⟨stripC k⟩ (decodeText v)
  | _ => d

/-- Model of `read`: takes the raw property-buffer text and the container's
name; an empty buffer short-circuits to the empty mapping. -/
def readBuf (props : String) (nodeName : String) : List (String × PyValue) :=
  if props = "" then []
  else
    dictInsert ((splitCRLF props.data).foldl readLine []) "instance_node"
      (.vstr nodeName)

/-- Modelled from the spec: the host property store renders one scalar as the
text stored after `key=`.  Booleans are stored as maxscript `true` / `false`,
integers in decimal, strings verbatim; the structured branch is `imprint`'s
own `f"{JSON_PREFIX}{json.dumps(v)}"`. -/
def renderVal : PyValue → String
  | .vstr s => s
  | .vbool true => "true"
  | .vbool false => "false"
  | .vint n => ⟨intToChars n⟩
  | .vnone => "undefined"
  | .vlist xs => JSON_PREFIX ++ ⟨dumpV (.vlist xs)⟩
  | .vdict fs => JSON_PREFIX ++ ⟨dumpV (.vdict fs)⟩

/-- Modelled from the spec: `SetUserProp` overwrites an existing key in place
and appends a new one. -/
def setProp (props : List (String × String)) (k v : String) :
    List (String × String) :=
  if props.any (fun p => p.1 == k) then
    props.map (fun p => if p.1 == k then (k, v) else p)
  else props ++ [(k, v)]

/-- The property-buffer effect of `imprint`'s loop on one node's properties. -/
def imprintProps (props : List (String × String))
    (data : List (String × PyValue)) : List (String × String) :=
  data.foldl (fun ps kv => setProp ps kv.1 (renderVal kv.2)) props

/-- A scene node as seen by the name-lookup operations: a name and its
user-property store. -/
structure MaxNode where
  name : String
  props : List (String × String)

/-- Modelled from the spec: `rt.GetNodeByName` over the scene's node
directory (first node with the given name, or absent). -/
def findNode (scene : List MaxNode) (nm : String) : Option MaxNode :=
  scene.find? (fun n => n.name == nm)

/-- Replace the first node with the given name. -/
def updateNode (scene : List MaxNode) (nm : String) (f : MaxNode → MaxNode) :
    List MaxNode :=
  match scene with
  | [] => []
  | n :: rest =>
    if n.name == nm then f n :: rest else n :: updateNode rest nm f

/-- Model of `imprint`: look the node up by name, return `false` with the
scene untouched when absent, otherwise write every entry of `data` into the
node's property store and return `true`.  The model is a total function:
there is no exception path. -/
def imprint (scene : List MaxNode) (nodeName : String)
    (data : List (String × PyValue)) : Bool × List MaxNode :=
  match findNode scene nodeName with
  | none => (false, scene)
  | some _ =>
    (true, updateNode scene nodeName (fun n => ⟨n.name, imprintProps n.props data⟩))

/-- CRLF join of buffer lines. -/
def joinCRLF : List (List Char) → List Char
  | [] => []
  | [l] => l
  | l :: ls => l ++ '\r' :: '\n' :: joinCRLF ls

/-- Modelled from the spec: `rt.GetUserPropBuffer` renders the property store
as `key=value` lines joined by CRLF (empty text for an empty store). -/
def renderBuffer (props : List (String × String)) : String :=
  ⟨joinCRLF (props.map (fun p => p.1.data ++ '=' :: p.2.data))⟩

/-- `read` applied to a scene node: decode its rendered property buffer. -/
def readNode (n : MaxNode) : List (String × PyValue) :=
  readBuf (renderBuffer n.props) n.name

/-! ## The attribute scanner (`lsattr`) -/

/-- The scene graph as a tree of parent→children edges, each node carrying
its user-property store. -/
inductive SceneNode where
  | mk (name : String) (props : List (String × String)) (children : List SceneNode)

def SceneNode.props : SceneNode → List (String × String)
  | .mk _ ps _ => ps

def SceneNode.children : SceneNode → List SceneNode
  | .mk _ _ cs => cs

/-- Modelled from the spec: per-node `rt.GetUserProp` (raw property read). -/
def getUserProp (n : SceneNode) (attr : String) : Option String :=
  (n.props.find? (fun p => p.1 == attr)).map (fun p => p.2)

mutual

/-- The depth-first pre-order node collection of `lsattr`'s `output_node`:
the node itself, then the traversals of its children in order. -/
def preorder : SceneNode → List SceneNode
  | .mk nm ps cs => .mk nm ps cs :: preorderList cs

def preorderList : List SceneNode → List SceneNode
  | [] => []
  | c :: cs => preorder c ++ preorderList cs

end

/-- Python truthiness of `rt.GetUserProp(n, attr)` in this model: the
attribute is present with a non-empty value. -/
def truthyProp (n : SceneNode) (attr : String) : Bool :=
  match getUserProp n attr with
  | some s => s ≠ ""
  | none => false

/-- Model of `lsattr`: collect the subtree in pre-order, then filter by the
`value` argument with Python truthiness on it (`[...] if value else [...]`). -/
def lsattr (attr : String) (value : Option String) (root : SceneNode) :
    List SceneNode :=
  let nodes := preorder root
  match value with
  | some v =>
    if v = "" then nodes.filter (fun n => truthyProp n attr)
    else nodes.filter (fun n => getUserProp n attr == some v)
  | none => nodes.filter (fun n => truthyProp n attr)

/-! ## The namespace allocator (`unique_namespace` / `get_namespace`) -/

/-- Python `namespace.strip(":")`. -/
def stripColons (s : List Char) : List Char :=
  ((s.dropWhile (fun c => c == ':')).reverse.dropWhile (fun c => c == ':')).reverse

/-- The leading `:` retained from the input namespace
(`namespace.startswith(":")`). -/
def colonStart (ns : String) : String :=
  if ns.data.head? = some ':' then ":" else ""

/-- The trailing `:` retained from the input namespace
(`namespace.endswith(":")`). -/
def colonEnd (ns : String) : String :=
  if ns.data.getLast? = some ':' then ":" else ""

/-- The segment after the last `:` of the colon-stripped namespace (the only
part subject to the collision search). -/
def lastSegment (ns : String) : String :=
  ⟨((stripColons ns.data).reverse.takeWhile (fun c => c ≠ ':')).reverse⟩

/-- The parent segments (with their trailing `:`) split off by
`namespace.rsplit(":", 1)`, empty when the stripped namespace has no `:`. -/
def parentsPart (ns : String) : String :=
  let core := stripColons ns.data
  if core.any (fun c => c == ':') then
    ⟨(((core.reverse.dropWhile (fun c => c ≠ ':')).drop 1).reverse) ++ [':']⟩
  else ""

/-- The iteration loop of `unique_namespace`, bounded by fuel (the Python
loop is unbounded; `none` models non-termination within the bound). -/
def findNs (existsNode : String → Bool) (pfx leaf sfx con st en : String)
    (fmt : Nat → String) : Nat → Nat → Option String
  | _, 0 => none
  | i, Nat.succ fuel =>
    let unique := pfx ++ (leaf ++ fmt i) ++ sfx
    if existsNode (unique ++ ":" ++ leaf ++ con) then
      findNs existsNode pfx leaf sfx con st en fmt (i + 1) fuel
    else some (st ++ unique ++ en)

/-- Model of `unique_namespace`: split the input namespace into retained
colons, verbatim parents and the final segment, then search iterations
1, 2, 3, … for the first probe container name that names no existing node.
`existsNode` is the external `rt.getNodeByName(...)` existence lookup and
`fmt` the `format % iteration` rendering. -/
def unique_namespace (existsNode : String → Bool) (ns : String)
    (fmt : Nat → String) (pfx sfx con : String) (fuel : Nat) : Option String :=
  findNs existsNode pfx (lastSegment ns) sfx con
    (colonStart ns ++ parentsPart ns) (colonEnd ns) fmt 1 fuel

/-- `"%02d" % i`. -/
def fmt02 (i : Nat) : String :=
  if i < 10 then "0" ++ ⟨natToChars i⟩ else ⟨natToChars i⟩

/-- Model of `get_namespace`: a hard `RuntimeError` when the master container
is absent, otherwise the raw `namespace` / `name` user properties, returned
as the pair `(namespace, name)`. -/
def get_namespace (scene : List MaxNode) (containerName : String) :
    Except String (Option String × Option String) :=
  match findNode scene containerName with
  | none => .error "Master Container Not Found.."
  | some node =>
    .ok ((node.props.find? (fun p => p.1 == "namespace")).map (fun p => p.2),
         (node.props.find? (fun p => p.1 == "name")).map (fun p => p.2))

/-! ## Proof-support definitions -/

/-- The first character after a complete number literal must not extend it. -/
def numBnd : List Char → Bool
  | [] => true
  | c :: _ => !(isDigitC c || c == '.' || c == 'e' || c == 'E')

def digStep (a : Nat) (c : Char) : Nat := a * 10 + digitVal c

mutual

/-- Structural size of a value, independent of the magnitude of embedded
integers and strings: an upper bound for the parser fuel. -/
def szV : PyValue → Nat
  | .vnone => 1
  | .vbool _ => 1
  | .vint _ => 1
  | .vstr _ => 1
  | .vlist xs => 1 + szL xs
  | .vdict fs => 1 + szM fs

def szL : List PyValue → Nat
  | [] => 0
  | x :: xs => 1 + szV x + szL xs

def szM : List (String × PyValue) → Nat
  | [] => 0
  | (_, v) :: fs => 1 + szV v + szM fs

end

/-- A continuation on which a complete JSON value parse may stop: empty, or
starting with a separator / closing bracket (the contexts produced by
`dumpV`). -/
def jBnd (rest : List Char) : Prop :=
  rest = [] ∨ ∃ c t, rest = c :: t ∧ (c = ',' ∨ c = ']' ∨ c = '\x7d')

/-- The stripped key of a property line, when the line has exactly one `=`. -/
def lineKeyOf (line : List Char) : Option String :=
  match splitOnChar '=' line with
  | [k, _] => some ⟨stripC k⟩
  | _ => none

/-- The decoded value of a property line with exactly one `=`. -/
def lineValOf (line : List Char) : PyValue :=
  match splitOnChar '=' line with
  | [_, v] => decodeText v
  | _ => .vnone

/-- One rendered `key=value` line of the property buffer. -/
def entryLine (p : String × String) : List Char := p.1.data ++ '=' :: p.2.data

/-- Lookup in the raw (string-valued) property store. -/
def lookupS (props : List (String × String)) (k : String) : Option String :=
  (props.find? (fun p => p.1 == k)).map (fun p => p.2)

mutual

/-- Number of nodes of a scene subtree. -/
def sizeN : SceneNode → Nat
  | .mk _ _ cs => 1 + sizeNList cs

def sizeNList : List SceneNode → Nat
  | [] => 0
  | c :: cs => sizeN c + sizeNList cs

end

/-- The container name probed by iteration `i` of `unique_namespace`:
`f"{unique}:{namespace}{con_suffix}"`. -/
def nsProbe (pfx leaf sfx con : String) (fmt : Nat → String) (i : Nat) :
    String :=
  (pfx ++ (leaf ++ fmt i) ++ sfx) ++ ":" ++ leaf ++ con

/-- A key that survives the `read` round-trip verbatim: already stripped, no
`=`, no CR-LF pair. -/
def cleanKey (k : String) : Prop :=
  stripC k.data = k.data ∧ (∀ c ∈ k.data, ¬ c = '=') ∧ hasCRLF k.data = false

instance : DecidablePred cleanKey := fun k => by
  unfold cleanKey; infer_instance

/-- Values whose imprint survives decode up to the documented caveats:
strings must be stripped, separator-free, CRLF-free, unmarked and not the
boolean literals; structured values must serialize without `=`; `None` is
excluded. -/
def cleanVal : PyValue → Prop
  | .vstr s => stripC s.data = s.data ∧ (∀ c ∈ s.data, ¬ c = '=') ∧
      hasCRLF s.data = false ∧ jsonMarked s.data = false ∧
      ¬ s = "true" ∧ ¬ s = "false"
  | .vbool _ => True
  | .vint _ => True
  | .vnone => False
  | .vlist xs => ∀ c ∈ dumpV (.vlist xs), ¬ c = '='
  | .vdict fs => ∀ c ∈ dumpV (.vdict fs), ¬ c = '='

instance : DecidablePred cleanVal := fun v => by
  cases v <;> (unfold cleanVal; infer_instance)

/-- The decode image of an imprinted value: integers come back as their
decimal text, everything else (clean) unchanged. -/
def encDec : PyValue → PyValue
  | .vint n => .vstr ⟨intToChars n⟩
  | v => v

/-! ## Lemmas: decimal digits and integer literals -/

theorem digitChar_spec :
    ∀ n, n < 10 → isDigitC (digitChar n) = true ∧ digitVal (digitChar n) = n := by
  decide

theorem hexDigitChar_spec :
    ∀ n, n < 16 → isHexC (hexDigitChar n) = true ∧ hexVal (hexDigitChar n) = n := by
  decide

theorem digitChar_ne_zero : ∀ n, n < 10 → 1 ≤ n → digitChar n ≠ '0' := by
  decide

theorem natToCharsFuel_append (fuel : Nat) :
    ∀ n acc, natToCharsFuel fuel n acc = natToCharsFuel fuel n [] ++ acc := by
  induction fuel with
  | zero => intro n acc; simp [natToCharsFuel]
  | succ f ih =>
    intro n acc
    by_cases h : n < 10
    · simp [natToCharsFuel, h]
    · simp only [natToCharsFuel, h, if_false]
      rw [ih (n / 10) (digitChar (n % 10) :: acc), ih (n / 10) [digitChar (n % 10)]]
      simp

theorem natToChars_small {n : Nat} (h : n < 10) : natToChars n = [digitChar n] := by
  cases n with
  | zero => rfl
  | succ m => show natToCharsFuel (m + 1) (m + 1) [] = _; simp [natToCharsFuel, h]

theorem natToCharsFuel_fuel_inv (n : Nat) :
    ∀ fuel acc, n ≤ fuel → natToCharsFuel fuel n acc = natToChars n ++ acc := by
  induction n using Nat.strong_induction_on with
  | _ n ih =>
    intro fuel acc hle
    by_cases h : n < 10
    · rw [natToChars_small h]
      cases fuel with
      | zero =>
        have : n = 0 := by omega
        subst this
        rfl
      | succ f => simp [natToCharsFuel, h]
    · obtain ⟨m, rfl⟩ : ∃ m, n = m + 1 := ⟨n - 1, by omega⟩
      have hdiv : (m + 1) / 10 < m + 1 := Nat.div_lt_self (by omega) (by omega)
      cases fuel with
      | zero => omega
      | succ f =>
        simp only [natToCharsFuel, h, if_false]
        rw [ih ((m + 1) / 10) hdiv f (digitChar ((m + 1) % 10) :: acc) (by omega)]
        show _ = natToCharsFuel (m + 1) (m + 1) [] ++ acc
        simp only [natToCharsFuel, h, if_false]
        rw [ih ((m + 1) / 10) hdiv m [digitChar ((m + 1) % 10)] (by omega)]
        simp

/-- The canonical unfolding of `natToChars`. -/
theorem natToChars_eq (n : Nat) :
    natToChars n =
      if n < 10 then [digitChar n]
      else natToChars (n / 10) ++ [digitChar (n % 10)] := by
  by_cases h : n < 10
  · simp [h, natToChars_small h]
  · simp only [h, if_false]
    obtain ⟨m, rfl⟩ : ∃ m, n = m + 1 := ⟨n - 1, by omega⟩
    show natToCharsFuel (m + 1) (m + 1) [] = _
    simp only [natToCharsFuel, h, if_false]
    exact natToCharsFuel_fuel_inv ((m + 1) / 10) m [digitChar ((m + 1) % 10)]
      (by omega)

theorem natToChars_digits (n : Nat) : ∀ c ∈ natToChars n, isDigitC c = true := by
  induction n using Nat.strong_induction_on with
  | _ n ih =>
    intro c hc
    rw [natToChars_eq] at hc
    by_cases h : n < 10
    · simp [h] at hc
      subst hc
      exact (digitChar_spec n h).1
    · simp only [h, if_false, List.mem_append, List.mem_singleton] at hc
      rcases hc with hc | hc
      · exact ih (n / 10) (Nat.div_lt_self (by omega) (by omega)) c hc
      · subst hc
        exact (digitChar_spec (n % 10) (Nat.mod_lt _ (by omega))).1

/-- The decimal literal starts with a digit, nonzero unless `n = 0`. -/
theorem natToChars_head (n : Nat) :
    ∃ c t, natToChars n = c :: t ∧ isDigitC c = true ∧ (1 ≤ n → c ≠ '0') := by
  induction n using Nat.strong_induction_on with
  | _ n ih =>
    rw [natToChars_eq]
    by_cases h : n < 10
    · exact ⟨digitChar n, [], by simp [h], (digitChar_spec n h).1,
        fun h1 => digitChar_ne_zero n h h1⟩
    · obtain ⟨c, t, heq, hdig, hnz⟩ :=
        ih (n / 10) (Nat.div_lt_self (by omega) (by omega))
      exact ⟨c, t ++ [digitChar (n % 10)], by simp [h, heq], hdig,
        fun _ => hnz (by omega)⟩

theorem parseDigitsAux_spec :
    ∀ (ds : List Char) (acc : Nat) (rest : List Char),
      (∀ c ∈ ds, isDigitC c = true) →
      (rest = [] ∨ ∃ c t, rest = c :: t ∧ isDigitC c = false) →
      parseDigitsAux acc (ds ++ rest) = (ds.foldl digStep acc, rest) := by
  intro ds
  induction ds with
  | nil =>
    intro acc rest _ hrest
    rcases hrest with rfl | ⟨c, t, rfl, hc⟩
    · simp [parseDigitsAux]
    · simp [parseDigitsAux, hc]
  | cons d ds ih =>
    intro acc rest hds hrest
    have hd : isDigitC d = true := hds d (by simp)
    simp only [List.cons_append, parseDigitsAux, hd, if_true, List.foldl_cons]
    exact ih _ rest (fun c hc => hds c (by simp [hc])) hrest

theorem foldl_digStep_natToChars (n : Nat) :
    ∀ acc, (natToChars n).foldl digStep acc =
      acc * 10 ^ (natToChars n).length + n := by
  induction n using Nat.strong_induction_on with
  | _ n ih =>
    intro acc
    rw [natToChars_eq]
    by_cases h : n < 10
    · simp [h, digStep, (digitChar_spec n h).2]
    · simp only [h, if_false, List.foldl_append, List.foldl_cons, List.foldl_nil,
        List.length_append, List.length_singleton]
      rw [ih (n / 10) (Nat.div_lt_self (by omega) (by omega)) acc]
      simp only [digStep, (digitChar_spec (n % 10) (Nat.mod_lt _ (by omega))).2]
      rw [pow_succ]
      have h2 : n / 10 * 10 + n % 10 = n := by omega
      calc (acc * 10 ^ (natToChars (n / 10)).length + n / 10) * 10 + n % 10
          = acc * (10 ^ (natToChars (n / 10)).length * 10) +
              (n / 10 * 10 + n % 10) := by ring
        _ = acc * (10 ^ (natToChars (n / 10)).length * 10) + n := by rw [h2]

theorem numBnd_cons {c : Char} {t : List Char} (h : numBnd (c :: t) = true) :
    isDigitC c = false ∧ ¬ c = '.' ∧ ¬ c = 'e' ∧ ¬ c = 'E' := by
  simp only [numBnd, Bool.not_eq_true', Bool.or_eq_false_iff,
    beq_eq_false_iff_ne, ne_eq] at h
  exact ⟨h.1.1.1, h.1.1.2, h.1.2, h.2⟩

theorem parseNumNat_natToChars (n : Nat) (rest : List Char)
    (hb : numBnd rest = true) :
    parseNumNat (natToChars n ++ rest) = some (n, rest) := by
  have hrest : rest = [] ∨ ∃ c t, rest = c :: t ∧ isDigitC c = false := by
    cases rest with
    | nil => exact Or.inl rfl
    | cons c t => exact Or.inr ⟨c, t, rfl, (numBnd_cons hb).1⟩
  by_cases h0 : n = 0
  · subst h0
    have h00 : natToChars 0 = ['0'] := by decide
    rw [h00]
    cases rest with
    | nil => decide
    | cons c t =>
      obtain ⟨h1, h2, h3, h4⟩ := numBnd_cons hb
      simp [parseNumNat, h1, h2, h3, h4, (by decide : isDigitC '0' = true)]
  · obtain ⟨c, t, heq, hdig, hnz⟩ := natToChars_head n
    have hc0 : ¬ c = '0' := hnz (by omega)
    rw [heq]
    simp only [List.cons_append, parseNumNat, hdig, if_true, hc0, if_false]
    have hds : ∀ x ∈ t, isDigitC x = true := by
      intro x hx
      exact natToChars_digits n x (by rw [heq]; simp [hx])
    rw [parseDigitsAux_spec t (digitVal c) rest hds hrest]
    have hval : t.foldl digStep (digitVal c) = n := by
      have h1 : (natToChars n).foldl digStep 0 = n := by
        rw [foldl_digStep_natToChars n 0]; omega
      rw [heq] at h1
      simpa [digStep] using h1
    rw [hval]
    cases rest with
    | nil => rfl
    | cons c2 t2 =>
      obtain ⟨h1, h2, h3, h4⟩ := numBnd_cons hb
      simp [h2, h3, h4]

theorem isDigitC_ne_dash {c : Char} (h : isDigitC c = true) : ¬ c = '-' := by
  intro hc; subst hc; exact absurd h (by decide)

theorem parseNum_intToChars (m : Int) (rest : List Char)
    (hb : numBnd rest = true) :
    parseNum (intToChars m ++ rest) = some (.vint m, rest) := by
  cases m with
  | ofNat n =>
    obtain ⟨c, t, heq, hdig, _⟩ := natToChars_head n
    show parseNum (natToChars n ++ rest) = _
    rw [heq]
    simp only [List.cons_append, parseNum, isDigitC_ne_dash hdig, if_false]
    rw [← List.cons_append, ← heq, parseNumNat_natToChars n rest hb]
    rfl
  | negSucc k =>
    show parseNum ('-' :: (natToChars (k + 1) ++ rest)) = _
    have hp := parseNumNat_natToChars (k + 1) rest hb
    have hneg : -((k + 1 : Nat) : Int) = Int.negSucc k := by
      rw [Int.negSucc_eq]; push_cast; ring
    simp [parseNum, hp]
    rw [← hneg]
    push_cast
    ring

/-! ## Lemmas: JSON string escaping round-trips -/

theorem stringMk_data (s : String) : String.mk s.data = s := rfl

theorem hex4_spec (n : Nat) (h : n < 0x10000) :
    ∃ a b c d, hex4 n = [a, b, c, d] ∧
      isHexC a = true ∧ isHexC b = true ∧ isHexC c = true ∧ isHexC d = true ∧
      hexVal a * 4096 + hexVal b * 256 + hexVal c * 16 + hexVal d = n := by
  refine ⟨_, _, _, _, rfl, (hexDigitChar_spec _ (by omega)).1,
    (hexDigitChar_spec _ (by omega)).1, (hexDigitChar_spec _ (by omega)).1,
    (hexDigitChar_spec _ (by omega)).1, ?_⟩
  rw [(hexDigitChar_spec (n / 4096 % 16) (by omega)).2,
      (hexDigitChar_spec (n / 256 % 16) (by omega)).2,
      (hexDigitChar_spec (n / 16 % 16) (by omega)).2,
      (hexDigitChar_spec (n % 16) (by omega)).2]
  omega

theorem char_valid_nat (c : Char) :
    c.toNat < 0xd800 ∨ (0xdfff < c.toNat ∧ c.toNat < 0x110000) := by
  have h := c.valid
  rcases h with h | ⟨h1, h2⟩
  · exact Or.inl h
  · exact Or.inr ⟨h1, h2⟩

theorem charOfNat_toNat (c : Char) : Char.ofNat c.toNat = c := by
  have hv : c.toNat.isValidChar := by
    rcases char_valid_nat c with h | ⟨h1, h2⟩
    · exact Or.inl h
    · exact Or.inr ⟨h1, h2⟩
  apply Char.ext
  simp only [Char.ofNat, hv, dif_pos]
  rfl

/-- Step lemmas for the fueled string parser. -/
theorem psa_quote (f : Nat) (X : List Char) :
    parseStrAux (f + 1) ('"' :: X) = some ([], X) := rfl

theorem psa_lit (f : Nat) (c : Char) (X : List Char) (h1 : ¬ c = '"')
    (h2 : ¬ c = '\\') (h3 : ¬ c.toNat < 0x20) :
    parseStrAux (f + 1) (c :: X) =
      (parseStrAux f X).map (fun p => (c :: p.1, p.2)) := by
  show (if c = '"' then some ([], X)
    else if c = '\\' then _
    else if c.toNat < 0x20 then none
    else (parseStrAux f X).map (fun p => (c :: p.1, p.2))) = _
  rw [if_neg h1, if_neg h2, if_neg h3]

theorem psa_escU (f : Nat) (a b c1 d : Char) (X : List Char)
    (ha : isHexC a = true) (hb : isHexC b = true) (hc1 : isHexC c1 = true)
    (hd : isHexC d = true)
    (hsur : ¬ (0xd800 ≤ hexVal a * 4096 + hexVal b * 256 + hexVal c1 * 16 + hexVal d ∧
      hexVal a * 4096 + hexVal b * 256 + hexVal c1 * 16 + hexVal d ≤ 0xdbff))
    (hsur2 : ¬ (0xdc00 ≤ hexVal a * 4096 + hexVal b * 256 + hexVal c1 * 16 + hexVal d ∧
      hexVal a * 4096 + hexVal b * 256 + hexVal c1 * 16 + hexVal d ≤ 0xdfff)) :
    parseStrAux (f + 1) ('\\' :: 'u' :: a :: b :: c1 :: d :: X) =
      (parseStrAux f X).map
        (fun p => (Char.ofNat
          (hexVal a * 4096 + hexVal b * 256 + hexVal c1 * 16 + hexVal d) :: p.1,
          p.2)) := by
  show (if isHexC a && isHexC b && isHexC c1 && isHexC d then
      let n := hexVal a * 4096 + hexVal b * 256 + hexVal c1 * 16 + hexVal d
      if 0xd800 ≤ n ∧ n ≤ 0xdbff then _
      else if 0xdc00 ≤ n ∧ n ≤ 0xdfff then none
      else (parseStrAux f X).map (fun p => (Char.ofNat n :: p.1, p.2))
    else none) = _
  rw [if_pos (by simp [ha, hb, hc1, hd])]
  simp only []
  rw [if_neg hsur, if_neg hsur2]

theorem psa_escPair (f : Nat) (a b c1 d e g h i : Char) (X : List Char)
    (ha : isHexC a = true) (hb : isHexC b = true) (hc1 : isHexC c1 = true)
    (hd : isHexC d = true) (he : isHexC e = true) (hg : isHexC g = true)
    (hh : isHexC h = true) (hi : isHexC i = true)
    (hhi : 0xd800 ≤ hexVal a * 4096 + hexVal b * 256 + hexVal c1 * 16 + hexVal d ∧
      hexVal a * 4096 + hexVal b * 256 + hexVal c1 * 16 + hexVal d ≤ 0xdbff)
    (hlo : 0xdc00 ≤ hexVal e * 4096 + hexVal g * 256 + hexVal h * 16 + hexVal i ∧
      hexVal e * 4096 + hexVal g * 256 + hexVal h * 16 + hexVal i ≤ 0xdfff) :
    parseStrAux (f + 1)
      ('\\' :: 'u' :: a :: b :: c1 :: d :: '\\' :: 'u' :: e :: g :: h :: i :: X) =
      (parseStrAux f X).map
        (fun p => (Char.ofNat
          (0x10000 +
            (hexVal a * 4096 + hexVal b * 256 + hexVal c1 * 16 + hexVal d - 0xd800) * 0x400 +
            (hexVal e * 4096 + hexVal g * 256 + hexVal h * 16 + hexVal i - 0xdc00)) :: p.1,
          p.2)) := by
  show (if isHexC a && isHexC b && isHexC c1 && isHexC d then
      let n := hexVal a * 4096 + hexVal b * 256 + hexVal c1 * 16 + hexVal d
      if 0xd800 ≤ n ∧ n ≤ 0xdbff then
        if isHexC e && isHexC g && isHexC h && isHexC i then
          let m := hexVal e * 4096 + hexVal g * 256 + hexVal h * 16 + hexVal i
          if 0xdc00 ≤ m ∧ m ≤ 0xdfff then
            (parseStrAux f X).map
              (fun p =>
                (Char.ofNat (0x10000 + (n - 0xd800) * 0x400 + (m - 0xdc00)) :: p.1, p.2))
          else none
        else none
      else _
    else none) = _
  rw [if_pos (by simp [ha, hb, hc1, hd]), if_pos hhi,
    if_pos (by simp [he, hg, hh, hi]), if_pos hlo]

/-- The JSON string-body escape round-trips through the string parser:
any fuel above the length of the decoded string suffices. -/
theorem parseStrAux_escBody :
    ∀ (s : List Char) (fuel : Nat), s.length < fuel → ∀ (rest : List Char),
      parseStrAux fuel (escBody s ++ '"' :: rest) = some (s, rest) := by
  intro s
  induction s with
  | nil =>
    intro fuel hf rest
    obtain ⟨f, rfl⟩ : ∃ f, fuel = f + 1 := ⟨fuel - 1, by omega⟩
    exact psa_quote f rest
  | cons c s ih =>
    intro fuel hf rest
    obtain ⟨f, rfl⟩ : ∃ f, fuel = f + 1 := ⟨fuel - 1, by omega⟩
    have hfs : s.length < f := by simp at hf; omega
    show parseStrAux (f + 1) ((escChar c ++ escBody s) ++ '"' :: rest) = _
    rw [List.append_assoc]
    by_cases h1 : c = '"'
    · subst h1
      show parseStrAux (f + 1) ('\\' :: '"' :: (escBody s ++ '"' :: rest)) = _
      show (parseStrAux f (escBody s ++ '"' :: rest)).map
        (fun p => ('"' :: p.1, p.2)) = _
      rw [ih f hfs rest]; rfl
    by_cases h2 : c = '\\'
    · subst h2
      show parseStrAux (f + 1) ('\\' :: '\\' :: (escBody s ++ '"' :: rest)) = _
      show (parseStrAux f (escBody s ++ '"' :: rest)).map
        (fun p => ('\\' :: p.1, p.2)) = _
      rw [ih f hfs rest]; rfl
    by_cases h3 : c = '\n'
    · subst h3
      show parseStrAux (f + 1) ('\\' :: 'n' :: (escBody s ++ '"' :: rest)) = _
      show (parseStrAux f (escBody s ++ '"' :: rest)).map
        (fun p => ('\n' :: p.1, p.2)) = _
      rw [ih f hfs rest]; rfl
    by_cases h4 : c = '\r'
    · subst h4
      show parseStrAux (f + 1) ('\\' :: 'r' :: (escBody s ++ '"' :: rest)) = _
      show (parseStrAux f (escBody s ++ '"' :: rest)).map
        (fun p => ('\r' :: p.1, p.2)) = _
      rw [ih f hfs rest]; rfl
    by_cases h5 : c = '\t'
    · subst h5
      show parseStrAux (f + 1) ('\\' :: 't' :: (escBody s ++ '"' :: rest)) = _
      show (parseStrAux f (escBody s ++ '"' :: rest)).map
        (fun p => ('\t' :: p.1, p.2)) = _
      rw [ih f hfs rest]; rfl
    by_cases h6 : c = '\x08'
    · subst h6
      show parseStrAux (f + 1) ('\\' :: 'b' :: (escBody s ++ '"' :: rest)) = _
      show (parseStrAux f (escBody s ++ '"' :: rest)).map
        (fun p => ('\x08' :: p.1, p.2)) = _
      rw [ih f hfs rest]; rfl
    by_cases h7 : c = '\x0c'
    · subst h7
      show parseStrAux (f + 1) ('\\' :: 'f' :: (escBody s ++ '"' :: rest)) = _
      show (parseStrAux f (escBody s ++ '"' :: rest)).map
        (fun p => ('\x0c' :: p.1, p.2)) = _
      rw [ih f hfs rest]; rfl
    by_cases h8 : 0x20 ≤ c.toNat ∧ c.toNat ≤ 0x7e
    · have hesc : escChar c = [c] := by
        unfold escChar
        rw [if_neg h1, if_neg h2, if_neg h3, if_neg h4, if_neg h5, if_neg h6,
          if_neg h7, if_pos h8]
      rw [hesc, List.singleton_append,
        psa_lit f c _ h1 h2 (by omega), ih f hfs rest]
      rfl
    by_cases h9 : c.toNat < 0x10000
    · -- single `\uXXXX` escape
      obtain ⟨a, b, c1, d, hhex, ha, hb, hc1, hd, hval⟩ := hex4_spec c.toNat h9
      have hesc : escChar c = '\\' :: 'u' :: [a, b, c1, d] := by
        unfold escChar
        rw [if_neg h1, if_neg h2, if_neg h3, if_neg h4, if_neg h5, if_neg h6,
          if_neg h7, if_neg h8, if_pos h9, hhex]
      rw [hesc]
      have hsur : ¬ (0xd800 ≤ c.toNat ∧ c.toNat ≤ 0xdbff) := by
        rcases char_valid_nat c with h | ⟨hh1, hh2⟩ <;> omega
      have hsur2 : ¬ (0xdc00 ≤ c.toNat ∧ c.toNat ≤ 0xdfff) := by
        rcases char_valid_nat c with h | ⟨hh1, hh2⟩ <;> omega
      show parseStrAux (f + 1) ('\\' :: 'u' :: a :: b :: c1 :: d ::
        (escBody s ++ '"' :: rest)) = _
      rw [psa_escU f a b c1 d _ ha hb hc1 hd (by rw [hval]; exact hsur)
        (by rw [hval]; exact hsur2)]
      rw [ih f hfs rest, hval, charOfNat_toNat]
      rfl
    · -- astral plane: surrogate pair
      have hel : c.toNat < 0x110000 := by
        rcases char_valid_nat c with h | ⟨hh1, hh2⟩ <;> omega
      obtain ⟨a, b, c1, d, hhexH, ha, hb, hc1, hd, hvalH⟩ :=
        hex4_spec (0xd800 + (c.toNat - 0x10000) / 0x400) (by omega)
      obtain ⟨e, g, h, i, hhexL, he, hg, hh, hi, hvalL⟩ :=
        hex4_spec (0xdc00 + (c.toNat - 0x10000) % 0x400) (by omega)
      have hesc : escChar c =
          '\\' :: 'u' :: [a, b, c1, d] ++ '\\' :: 'u' :: [e, g, h, i] := by
        unfold escChar
        rw [if_neg h1, if_neg h2, if_neg h3, if_neg h4, if_neg h5, if_neg h6,
          if_neg h7, if_neg h8, if_neg h9, hhexH, hhexL]
      rw [hesc]
      show parseStrAux (f + 1) ('\\' :: 'u' :: a :: b :: c1 :: d ::
        ('\\' :: 'u' :: e :: g :: h :: i ::
          (escBody s ++ '"' :: rest))) = _
      rw [psa_escPair f a b c1 d e g h i _ ha hb hc1 hd he hg hh hi
        (by rw [hvalH]; omega) (by rw [hvalL]; omega)]
      rw [ih f hfs rest]
      have hcomb : 0x10000 +
          (hexVal a * 4096 + hexVal b * 256 + hexVal c1 * 16 + hexVal d - 0xd800) * 0x400 +
          (hexVal e * 4096 + hexVal g * 256 + hexVal h * 16 + hexVal i - 0xdc00) = c.toNat := by
        rw [hvalH, hvalL]; omega
      rw [hcomb, charOfNat_toNat]
      rfl

/-! ## Lemmas: character classes and heads of serialized values -/

theorem char_ne_of_toNat_ne {c d : Char} (h : c.toNat ≠ d.toNat) : ¬ c = d :=
  fun he => h (he ▸ rfl)

theorem isDigitC_toNat {c : Char} (h : isDigitC c = true) :
    48 ≤ c.toNat ∧ c.toNat ≤ 57 := by
  simp only [isDigitC, Bool.and_eq_true, decide_eq_true_eq] at h
  have h1 : ('0' : Char).toNat ≤ c.toNat := by
    have := h.1
    simp only [Char.le_def] at this
    exact this
  have h2 : c.toNat ≤ ('9' : Char).toNat := by
    have := h.2
    simp only [Char.le_def] at this
    exact this
  exact ⟨h1, h2⟩

/-- A decimal digit character is not whitespace nor any of the JSON
dispatch/closing characters. -/
theorem digit_props {c : Char} (h : isDigitC c = true) :
    jsonWs c = false ∧ ¬ c = ']' ∧ ¬ c = '\x7d' ∧ ¬ c = 'n' ∧ ¬ c = 't' ∧
      ¬ c = 'f' ∧ ¬ c = '"' ∧ ¬ c = '[' ∧ ¬ c = '\x7b' := by
  obtain ⟨h1, h2⟩ := isDigitC_toNat h
  refine ⟨?_, ?_, ?_, ?_, ?_, ?_, ?_, ?_, ?_⟩
  · simp only [jsonWs, Bool.or_eq_false_iff, beq_eq_false_iff_ne, ne_eq]
    refine ⟨⟨⟨?_, ?_⟩, ?_⟩, ?_⟩ <;> exact char_ne_of_toNat_ne (by simp; omega)
  all_goals exact char_ne_of_toNat_ne (by simp; omega)

theorem jBnd_numBnd {rest : List Char} (h : jBnd rest) : numBnd rest = true := by
  rcases h with rfl | ⟨c, t, rfl, hc | hc | hc⟩ <;> first
    | rfl
    | (subst hc; rfl)

theorem jBnd_head_props {c : Char} {t : List Char}
    (h : jBnd (c :: t)) : jsonWs c = false := by
  rcases h with h | ⟨c', t', he, hc | hc | hc⟩ <;>
    first
      | exact absurd h (by simp)
      | (cases he; subst hc; rfl)

/-- The head character of a serialized value: nonempty, not whitespace, not a
closing bracket. -/
theorem dumpV_head (v : PyValue) :
    ∃ c t, dumpV v = c :: t ∧ jsonWs c = false ∧ ¬ c = ']' ∧ ¬ c = '\x7d' := by
  cases v with
  | vnone => exact ⟨'n', _, rfl, by decide, by decide, by decide⟩
  | vbool b =>
    cases b
    · exact ⟨'f', _, rfl, by decide, by decide, by decide⟩
    · exact ⟨'t', _, rfl, by decide, by decide, by decide⟩
  | vint n =>
    cases n with
    | ofNat m =>
      obtain ⟨c, t, heq, hdig, _⟩ := natToChars_head m
      obtain ⟨hws, hne1, hne2, _⟩ := digit_props hdig
      exact ⟨c, t, heq, hws, hne1, hne2⟩
    | negSucc m =>
      exact ⟨'-', _, rfl, by decide, by decide, by decide⟩
  | vstr s => exact ⟨'"', _, rfl, by decide, by decide, by decide⟩
  | vlist xs => cases xs with
    | nil => exact ⟨'[', _, rfl, by decide, by decide, by decide⟩
    | cons x xs => exact ⟨'[', _, rfl, by decide, by decide, by decide⟩
  | vdict fs => cases fs with
    | nil => exact ⟨'\x7b', _, rfl, by decide, by decide, by decide⟩
    | cons f fs => exact ⟨'\x7b', _, rfl, by decide, by decide, by decide⟩

theorem escChar_length_pos (c : Char) : 1 ≤ (escChar c).length := by
  unfold escChar
  repeat' split
  all_goals simp [hex4]

theorem escBody_length (s : List Char) : s.length ≤ (escBody s).length := by
  induction s with
  | nil => simp [escBody]
  | cons c s ih =>
    have := escChar_length_pos c
    simp only [escBody, List.length_append, List.length_cons]
    omega

theorem skipWs_cons_false {c : Char} {t : List Char} (h : jsonWs c = false) :
    skipWs (c :: t) = c :: t := by
  simp [skipWs, List.dropWhile_cons, h]

theorem skipWs_cons_true {c : Char} {t : List Char} (h : jsonWs c = true) :
    skipWs (c :: t) = skipWs t := by
  simp [skipWs, List.dropWhile_cons, h]

theorem szV_pos (v : PyValue) : 1 ≤ szV v := by
  cases v <;> simp [szV]

/-! ## Lemmas: parser step reductions -/

theorem pv_null (f : Nat) (X : List Char) :
    parseVal (f + 1) ('n' :: 'u' :: 'l' :: 'l' :: X) = some (.vnone, X) := rfl

theorem pv_true (f : Nat) (X : List Char) :
    parseVal (f + 1) ('t' :: 'r' :: 'u' :: 'e' :: X) = some (.vbool true, X) := rfl

theorem pv_false (f : Nat) (X : List Char) :
    parseVal (f + 1) ('f' :: 'a' :: 'l' :: 's' :: 'e' :: X) = some (.vbool false, X) := rfl

theorem pv_str_step (f : Nat) (X : List Char) :
    parseVal (f + 1) ('"' :: X) =
      (match parseStrAux (X.length + 1) X with
       | some (l, r) => some (PyValue.vstr ⟨l⟩, r)
       | none => none) := rfl

theorem pv_arr_nil (f : Nat) (X : List Char) :
    parseVal (f + 1) ('[' :: ']' :: X) = some (.vlist [], X) := rfl

theorem pv_obj_nil (f : Nat) (X : List Char) :
    parseVal (f + 1) ('\x7b' :: '\x7d' :: X) = some (.vdict [], X) := rfl

theorem pv_other (f : Nat) (c : Char) (X : List Char) (hn : ¬ c = 'n')
    (ht : ¬ c = 't') (hf : ¬ c = 'f') (hq : ¬ c = '"') (hb : ¬ c = '[')
    (hc : ¬ c = '\x7b') :
    parseVal (f + 1) (c :: X) = parseNum (c :: X) := by
  show (if c = 'n' then _
    else if c = 't' then _
    else if c = 'f' then _
    else if c = '"' then _
    else if c = '[' then _
    else if c = '\x7b' then _
    else parseNum (c :: X)) = _
  rw [if_neg hn, if_neg ht, if_neg hf, if_neg hq, if_neg hb, if_neg hc]

theorem pv_arr_go (f : Nat) (c2 : Char) (Y : List Char)
    (hws : jsonWs c2 = false) (hne : ¬ c2 = ']') :
    parseVal (f + 1) ('[' :: c2 :: Y) =
      (match parseElems f (c2 :: Y) with
       | some (xs, r3) => some (.vlist xs, r3)
       | none => none) := by
  show (match skipWs (c2 :: Y) with
    | [] => none
    | c3 :: r2 =>
      if c3 = ']' then some (PyValue.vlist [], r2)
      else
        match parseElems f (c3 :: r2) with
        | some (xs, r3) => some (PyValue.vlist xs, r3)
        | none => none) = _
  rw [skipWs_cons_false hws]
  show (if c2 = ']' then some (PyValue.vlist [], Y)
    else
      match parseElems f (c2 :: Y) with
      | some (xs, r3) => some (PyValue.vlist xs, r3)
      | none => none) = _
  rw [if_neg hne]

theorem pv_obj_go (f : Nat) (c2 : Char) (Y : List Char)
    (hws : jsonWs c2 = false) (hne : ¬ c2 = '\x7d') :
    parseVal (f + 1) ('\x7b' :: c2 :: Y) =
      (match parseMembers f (c2 :: Y) with
       | some (fs, r3) => some (.vdict fs, r3)
       | none => none) := by
  show (match skipWs (c2 :: Y) with
    | [] => none
    | c3 :: r2 =>
      if c3 = '\x7d' then some (PyValue.vdict [], r2)
      else
        match parseMembers f (c3 :: r2) with
        | some (fs, r3) => some (PyValue.vdict fs, r3)
        | none => none) = _
  rw [skipWs_cons_false hws]
  show (if c2 = '\x7d' then some (PyValue.vdict [], Y)
    else
      match parseMembers f (c2 :: Y) with
      | some (fs, r3) => some (PyValue.vdict fs, r3)
      | none => none) = _
  rw [if_neg hne]

theorem parseElems_step_cons (g : Nat) (cs : List Char) (x : PyValue)
    (c2 : Char) (r2 : List Char) (hP : parseVal g cs = some (x, c2 :: r2))
    (hws : jsonWs c2 = false) :
    parseElems (g + 1) cs =
      (if c2 = ',' then
        match parseElems g (skipWs r2) with
        | some (vs, r3) => some (x :: vs, r3)
        | none => none
      else if c2 = ']' then some ([x], r2)
      else none) := by
  show (match parseVal g cs with
    | none => none
    | some (v, r) => _) = _
  rw [hP]
  show (match skipWs (c2 :: r2) with
    | [] => none
    | c3 :: r3 => _) = _
  rw [skipWs_cons_false hws]

theorem parseMembers_step (g : Nat) (r0 : List Char) (kcs : List Char)
    (c2 : Char) (r2 : List Char)
    (hK : parseStrAux (r0.length + 1) r0 = some (kcs, c2 :: r2))
    (hws : jsonWs c2 = false) :
    parseMembers (g + 1) ('"' :: r0) =
      (if c2 = ':' then
        match parseVal g (skipWs r2) with
        | some (v, r3) =>
          match skipWs r3 with
          | [] => none
          | c3 :: r4 =>
            if c3 = ',' then
              match parseMembers g (skipWs r4) with
              | some (fs, r5) => some ((⟨kcs⟩, v) :: fs, r5)
              | none => none
            else if c3 = '\x7d' then some ([(⟨kcs⟩, v)], r4)
            else none
        | none => none
      else none) := by
  show (match parseStrAux (r0.length + 1) r0 with
    | some (kcs2, r1) => _
    | none => none) = _
  rw [hK]
  show (match skipWs (c2 :: r2) with
    | [] => none
    | c3 :: r3 => _) = _
  rw [skipWs_cons_false hws]

/-! ## The parser inverts the serializer -/

theorem intToChars_head (m : Int) :
    ∃ c t, intToChars m = c :: t ∧ ¬ c = 'n' ∧ ¬ c = 't' ∧ ¬ c = 'f' ∧
      ¬ c = '"' ∧ ¬ c = '[' ∧ ¬ c = '\x7b' := by
  cases m with
  | ofNat m =>
    obtain ⟨c, t, heq, hdig, _⟩ := natToChars_head m
    obtain ⟨_, _, _, h4, h5, h6, h7, h8, h9⟩ := digit_props hdig
    exact ⟨c, t, heq, h4, h5, h6, h7, h8, h9⟩
  | negSucc m =>
    exact ⟨'-', _, rfl, by decide, by decide, by decide, by decide, by decide,
      by decide⟩

theorem escString_append (k : String) (Z : List Char) :
    escString k ++ Z = '"' :: (escBody k.data ++ '"' :: Z) := by
  simp [escString]

/-- The JSON parser inverts the serializer: master lemma, by induction on a
common size bound for the three mutual statements (values, array tails,
object tails). -/
theorem parse_dump_all : ∀ N : Nat,
    (∀ v, szV v ≤ N → ∀ fuel, szV v ≤ fuel → ∀ rest, jBnd rest →
      parseVal fuel (dumpV v ++ rest) = some (v, rest)) ∧
    (∀ x xs, 1 + szV x + szL xs ≤ N → ∀ fuel, 1 + szV x + szL xs ≤ fuel →
      ∀ rest, parseElems fuel (dumpV x ++ (dumpElems xs ++ ']' :: rest)) =
        some (x :: xs, rest)) ∧
    (∀ k v fs, 1 + szV v + szM fs ≤ N → ∀ fuel, 1 + szV v + szM fs ≤ fuel →
      ∀ rest, parseMembers fuel
          (escString k ++ ':' :: ' ' ::
            (dumpV v ++ (dumpMembers fs ++ '\x7d' :: rest))) =
        some ((k, v) :: fs, rest)) := by
  intro N
  induction N with
  | zero =>
    refine ⟨?_, ?_, ?_⟩
    · intro v hv; have := szV_pos v; omega
    · intro x xs h; have := szV_pos x; omega
    · intro k v fs h; have := szV_pos v; omega
  | succ N ihN =>
    obtain ⟨ihP, ihQ, ihQM⟩ := ihN
    refine ⟨?_, ?_, ?_⟩
    · -- values
      intro v hv fuel hfuel rest hrest
      obtain ⟨f, rfl⟩ : ∃ f, fuel = f + 1 :=
        ⟨fuel - 1, by have := szV_pos v; omega⟩
      cases v with
      | vnone => exact pv_null f rest
      | vbool b => cases b with
        | true => exact pv_true f rest
        | false => exact pv_false f rest
      | vint n =>
        obtain ⟨c, t, heq, hn, ht', hf', hq, hb, hc⟩ := intToChars_head n
        show parseVal (f + 1) (intToChars n ++ rest) = _
        rw [heq, List.cons_append, pv_other f c _ hn ht' hf' hq hb hc,
          ← List.cons_append, ← heq]
        exact parseNum_intToChars n rest (jBnd_numBnd hrest)
      | vstr s =>
        show parseVal (f + 1) (('"' :: (escBody s.data ++ ['"'])) ++ rest) = _
        rw [List.cons_append, List.append_assoc, List.singleton_append]
        rw [pv_str_step]
        have hlen : s.data.length < (escBody s.data ++ '"' :: rest).length + 1 := by
          have := escBody_length s.data
          simp only [List.length_append, List.length_cons]
          omega
        rw [parseStrAux_escBody s.data _ hlen rest]
      | vlist xs =>
        cases xs with
        | nil => exact pv_arr_nil f rest
        | cons x xs =>
          have hsz : szV (.vlist (x :: xs)) = 2 + szV x + szL xs := by
            simp [szV, szL]; omega
          obtain ⟨cx, tx, hcx, hwx, hne1, hne2⟩ := dumpV_head x
          show parseVal (f + 1)
            (('[' :: ((dumpV x ++ dumpElems xs) ++ [']'])) ++ rest) = _
          rw [List.cons_append, List.append_assoc, List.singleton_append,
            List.append_assoc]
          rw [hcx, List.cons_append, pv_arr_go f cx _ hwx hne1,
            ← List.cons_append, ← hcx]
          rw [ihQ x xs (by omega) f (by omega) rest]
      | vdict fs =>
        cases fs with
        | nil => exact pv_obj_nil f rest
        | cons fld fs =>
          obtain ⟨k, v⟩ := fld
          have hsz : szV (.vdict ((k, v) :: fs)) = 2 + szV v + szM fs := by
            simp [szV, szM]; omega
          have hQM := ihQM k v fs (by omega) f (by omega) rest
          have hshape : dumpV (.vdict ((k, v) :: fs)) ++ rest =
              '\x7b' :: (escString k ++ ':' :: ' ' ::
                (dumpV v ++ (dumpMembers fs ++ '\x7d' :: rest))) := by
            simp [dumpV, dumpMember, List.append_assoc]
          rw [hshape, escString_append,
            pv_obj_go f '"' _ (by decide) (by decide)]
          rw [escString_append] at hQM
          rw [hQM]
    · -- array tails
      intro x xs hN fuel hfuel rest
      obtain ⟨g, rfl⟩ : ∃ g, fuel = g + 1 := ⟨fuel - 1, by omega⟩
      have hx := szV_pos x
      cases xs with
      | nil =>
        have hP := ihP x (by omega) g (by simp [szL] at hN hfuel; omega)
          (']' :: rest) (Or.inr ⟨']', rest, rfl, Or.inr (Or.inl rfl)⟩)
        have hP' : parseVal g (dumpV x ++ (dumpElems [] ++ ']' :: rest)) =
            some (x, ']' :: rest) := by simpa [dumpElems] using hP
        rw [parseElems_step_cons g _ x ']' rest hP' (by decide)]
        rfl
      | cons y ys =>
        have hQsz : 1 + szV y + szL ys ≤ N := by
          simp [szL] at hN; omega
        have hres : dumpElems (y :: ys) ++ ']' :: rest =
            ',' :: ' ' :: ((dumpV y ++ dumpElems ys) ++ ']' :: rest) := by
          simp [dumpElems]
        have hP := ihP x (by omega) g (by simp [szL] at hfuel; omega)
          (dumpElems (y :: ys) ++ ']' :: rest)
          (by rw [hres]; exact Or.inr ⟨',', _, rfl, Or.inl rfl⟩)
        rw [hres] at hP
        rw [hres, parseElems_step_cons g _ x ','
          (' ' :: ((dumpV y ++ dumpElems ys) ++ ']' :: rest)) hP (by decide),
          if_pos rfl]
        rw [skipWs_cons_true (by decide), List.append_assoc]
        obtain ⟨cy, ty, hcy, hwy, _, _⟩ := dumpV_head y
        rw [hcy, List.cons_append, skipWs_cons_false hwy, ← List.cons_append,
          ← hcy]
        rw [ihQ y ys hQsz g (by simp [szL] at hfuel; omega) rest]
    · -- object tails
      intro k v fs hN fuel hfuel rest
      obtain ⟨g, rfl⟩ : ∃ g, fuel = g + 1 := ⟨fuel - 1, by omega⟩
      have hv := szV_pos v
      rw [escString_append]
      have hK : parseStrAux
          ((escBody k.data ++ '"' :: ':' :: ' ' ::
            (dumpV v ++ (dumpMembers fs ++ '\x7d' :: rest))).length + 1)
          (escBody k.data ++ '"' :: ':' :: ' ' ::
            (dumpV v ++ (dumpMembers fs ++ '\x7d' :: rest))) =
          some (k.data, ':' :: ' ' ::
            (dumpV v ++ (dumpMembers fs ++ '\x7d' :: rest))) := by
        apply parseStrAux_escBody
        have := escBody_length k.data
        simp only [List.length_append, List.length_cons]
        omega
      rw [parseMembers_step g _ k.data ':'
        (' ' :: (dumpV v ++ (dumpMembers fs ++ '\x7d' :: rest))) hK (by decide),
        if_pos rfl]
      rw [skipWs_cons_true (by decide)]
      obtain ⟨cv, tv, hcv, hwv, _, _⟩ := dumpV_head v
      rw [hcv, List.cons_append, skipWs_cons_false hwv, ← List.cons_append,
        ← hcv]
      have hjb : jBnd (dumpMembers fs ++ '\x7d' :: rest) := by
        cases fs with
        | nil =>
          exact Or.inr ⟨'\x7d', rest, by simp [dumpMembers],
            Or.inr (Or.inr rfl)⟩
        | cons f2 fs2 =>
          exact Or.inr ⟨',', ' ' :: (dumpMember f2 ++
            (dumpMembers fs2 ++ '\x7d' :: rest)),
            by simp [dumpMembers, List.append_assoc], Or.inl rfl⟩
      rw [ihP v (by omega) g (by omega) _ hjb]
      show (match skipWs (dumpMembers fs ++ '\x7d' :: rest) with
        | [] => none
        | c3 :: r4 => _) = _
      cases fs with
      | nil =>
        rw [show dumpMembers [] ++ '\x7d' :: rest = '\x7d' :: rest from by
          simp [dumpMembers]]
        rw [skipWs_cons_false (by decide)]
        rfl
      | cons f2 fs2 =>
        obtain ⟨k2, v2⟩ := f2
        have hms : dumpMembers ((k2, v2) :: fs2) ++ '\x7d' :: rest =
            ',' :: ' ' :: (dumpMember (k2, v2) ++
              (dumpMembers fs2 ++ '\x7d' :: rest)) := by
          simp [dumpMembers, List.append_assoc]
        rw [hms, skipWs_cons_false (by decide)]
        show (if (',' : Char) = ',' then _ else _) = _
        rw [if_pos rfl]
        rw [skipWs_cons_true (by decide)]
        have hm2 : dumpMember (k2, v2) ++ (dumpMembers fs2 ++ '\x7d' :: rest) =
            '"' :: (escBody k2.data ++ '"' :: ':' :: ' ' ::
              (dumpV v2 ++ (dumpMembers fs2 ++ '\x7d' :: rest))) := by
          simp [dumpMember, escString, List.append_assoc]
        rw [hm2, skipWs_cons_false (by decide), ← escString_append]
        have hsz2 : 1 + szV v2 + szM fs2 ≤ N := by
          simp [szM] at hN; omega
        rw [ihQM k2 v2 fs2 hsz2 g (by simp [szM] at hfuel; omega) rest]

/-- The serialized form of a value is at least one character long. -/
theorem dumpV_length_pos (v : PyValue) : 1 ≤ (dumpV v).length := by
  obtain ⟨c, t, hc, _⟩ := dumpV_head v
  simp [hc]

/-- The structural size is bounded by the serialized length (so the
length-based fuel of `loadsChars` suffices). -/
theorem szV_le_dump : ∀ N : Nat,
    (∀ v, szV v ≤ N → szV v ≤ (dumpV v).length) ∧
    (∀ xs, szL xs ≤ N → szL xs ≤ (dumpElems xs).length) ∧
    (∀ fs, szM fs ≤ N → szM fs ≤ (dumpMembers fs).length) := by
  intro N
  induction N with
  | zero =>
    refine ⟨?_, ?_, ?_⟩
    · intro v hv; have := szV_pos v; omega
    · intro xs h
      cases xs with
      | nil => simp [szL, dumpElems]
      | cons x xs => simp [szL] at h
    · intro fs h
      cases fs with
      | nil => simp [szM, dumpMembers]
      | cons f fs =>
        obtain ⟨k, v⟩ := f
        simp [szM] at h
  | succ N ihN =>
    obtain ⟨ih1, ih2, ih3⟩ := ihN
    refine ⟨?_, ?_, ?_⟩
    · intro v hv
      cases v with
      | vnone => simp [szV, dumpV]
      | vbool b => cases b <;> simp [szV, dumpV]
      | vint n =>
        have := dumpV_length_pos (.vint n)
        have h1 : szV (.vint n) = 1 := by simp [szV]
        omega
      | vstr s =>
        have := dumpV_length_pos (.vstr s)
        have h1 : szV (.vstr s) = 1 := by simp [szV]
        omega
      | vlist xs =>
        cases xs with
        | nil => simp [szV, szL, dumpV]
        | cons x xs =>
          have hszv : szV (.vlist (x :: xs)) = 1 + (1 + szV x + szL xs) := by
            simp [szV, szL]
          have h1 : szV x ≤ (dumpV x).length :=
            ih1 x (by rw [hszv] at hv; omega)
          have h2 : szL xs ≤ (dumpElems xs).length := by
            refine ih2 xs ?_
            have := szV_pos x
            rw [hszv] at hv; omega
          rw [hszv]
          simp only [dumpV, List.length_append, List.length_cons,
            List.length_nil]
          omega
      | vdict fs =>
        cases fs with
        | nil => simp [szV, szM, dumpV]
        | cons fld fs =>
          obtain ⟨k, v⟩ := fld
          have hszv : szV (.vdict ((k, v) :: fs)) = 1 + (1 + szV v + szM fs) := by
            simp [szV, szM]
          have h1 : szV v ≤ (dumpV v).length :=
            ih1 v (by rw [hszv] at hv; omega)
          have h2 : szM fs ≤ (dumpMembers fs).length := by
            refine ih3 fs ?_
            have := szV_pos v
            rw [hszv] at hv; omega
          rw [hszv]
          simp only [dumpV, dumpMember, escString, List.length_append,
            List.length_cons, List.length_nil]
          omega
    · intro xs hxs
      cases xs with
      | nil => simp [szL, dumpElems]
      | cons x xs =>
        have hsz : szL (x :: xs) = 1 + szV x + szL xs := by simp [szL]
        have h1 : szV x ≤ (dumpV x).length :=
          ih1 x (by rw [hsz] at hxs; omega)
        have h2 : szL xs ≤ (dumpElems xs).length := by
          refine ih2 xs ?_
          have := szV_pos x
          rw [hsz] at hxs; omega
        rw [hsz]
        simp only [dumpElems, List.length_append, List.length_cons,
          List.length_nil]
        omega
    · intro fs hfs
      cases fs with
      | nil => simp [szM, dumpMembers]
      | cons fld fs =>
        obtain ⟨k, v⟩ := fld
        have hsz : szM ((k, v) :: fs) = 1 + szV v + szM fs := by simp [szM]
        have h1 : szV v ≤ (dumpV v).length :=
          ih1 v (by rw [hsz] at hfs; omega)
        have h2 : szM fs ≤ (dumpMembers fs).length := by
          refine ih3 fs ?_
          have := szV_pos v
          rw [hsz] at hfs; omega
        rw [hsz]
        simp only [dumpMembers, dumpMember, escString, List.length_append,
          List.length_cons, List.length_nil]
        omega

/-- `json.loads` inverts `json.dumps` in this model. -/
theorem loadsChars_dumpV (v : PyValue) : loadsChars (dumpV v) = some v := by
  have hsz : szV v ≤ (dumpV v).length + 1 := by
    have := (szV_le_dump (szV v)).1 v le_rfl
    omega
  have hP := (parse_dump_all (szV v)).1 v le_rfl ((dumpV v).length + 1)
    hsz [] (Or.inl rfl)
  rw [List.append_nil] at hP
  obtain ⟨c, t, hc, hws, _, _⟩ := dumpV_head v
  unfold loadsChars
  rw [hc, skipWs_cons_false hws, ← hc, hP]
  rfl

/-! ## Lemmas: buffer lines -/

theorem hasCRLF_cons {c c2 : Char} {rest : List Char}
    (h : hasCRLF (c :: c2 :: rest) = false) :
    ¬ (c = '\r' ∧ c2 = '\n') ∧ hasCRLF (c2 :: rest) = false := by
  simp only [hasCRLF, Bool.or_eq_false_iff, Bool.and_eq_false_iff,
    beq_eq_false_iff_ne, ne_eq] at h
  obtain ⟨h1, h2⟩ := h
  refine ⟨?_, h2⟩
  rintro ⟨rfl, rfl⟩
  rcases h1 with h | h <;> exact h rfl

theorem splitCRLF_no_sep (l : List Char) (h : hasCRLF l = false) :
    splitCRLF l = [l] := by
  induction l with
  | nil => rfl
  | cons c l ih =>
    cases l with
    | nil => rfl
    | cons c2 l' =>
      obtain ⟨hcc, hrest⟩ := hasCRLF_cons h
      rw [splitCRLF, if_neg hcc, ih hrest]

theorem splitCRLF_append (l t : List Char) (h : hasCRLF l = false) :
    splitCRLF (l ++ '\r' :: '\n' :: t) = l :: splitCRLF t := by
  induction l with
  | nil => simp [splitCRLF]
  | cons c l ih =>
    cases l with
    | nil =>
      show splitCRLF (c :: '\r' :: '\n' :: t) = [c] :: splitCRLF t
      rw [splitCRLF, if_neg (by rintro ⟨_, h2⟩; exact absurd h2 (by decide))]
      rw [show splitCRLF ('\r' :: '\n' :: t) = [] :: splitCRLF t from by
        rw [splitCRLF, if_pos ⟨rfl, rfl⟩]]
    | cons c2 l' =>
      obtain ⟨hcc, hrest⟩ := hasCRLF_cons h
      show splitCRLF (c :: c2 :: (l' ++ '\r' :: '\n' :: t)) = _
      rw [splitCRLF, if_neg hcc]
      have := ih hrest
      rw [show (c2 :: l') ++ '\r' :: '\n' :: t = c2 :: (l' ++ '\r' :: '\n' :: t)
        from rfl] at this
      rw [this]

theorem splitOnChar_no_sep (sep : Char) (l : List Char)
    (h : ∀ c ∈ l, ¬ c = sep) : splitOnChar sep l = [l] := by
  induction l with
  | nil => rfl
  | cons c l ih =>
    have hc : (c == sep) = false := by
      simp only [beq_eq_false_iff_ne, ne_eq]
      exact h c (by simp)
    rw [splitOnChar, if_neg (by simp [hc]), ih (fun x hx => h x (by simp [hx]))]

theorem splitOnChar_append (sep : Char) (k v : List Char)
    (h : ∀ c ∈ k, ¬ c = sep) :
    splitOnChar sep (k ++ sep :: v) = k :: splitOnChar sep v := by
  induction k with
  | nil => simp [splitOnChar]
  | cons c k ih =>
    have hc : (c == sep) = false := by
      simp only [beq_eq_false_iff_ne, ne_eq]
      exact h c (by simp)
    show splitOnChar sep (c :: (k ++ sep :: v)) = _
    rw [splitOnChar, if_neg (by simp [hc]), ih (fun x hx => h x (by simp [hx]))]

/-- Splitting a well-formed `key=value` line on `=` recovers key and value. -/
theorem splitOnChar_line (k v : List Char)
    (hk : ∀ c ∈ k, ¬ c = '=') (hv : ∀ c ∈ v, ¬ c = '=') :
    splitOnChar '=' (k ++ '=' :: v) = [k, v] := by
  rw [splitOnChar_append '=' k v hk, splitOnChar_no_sep '=' v hv]

/-! ## Lemmas: stripping -/

theorem stripC_eq_self (l : List Char)
    (h1 : ∀ c, l.head? = some c → pyWs c = false)
    (h2 : ∀ c, l.getLast? = some c → pyWs c = false) :
    stripC l = l := by
  have hd : l.dropWhile pyWs = l := by
    cases l with
    | nil => rfl
    | cons c t =>
      rw [List.dropWhile_cons, if_neg (by simp [h1 c rfl])]
  unfold stripC
  rw [hd]
  have hrev : l.reverse.dropWhile pyWs = l.reverse := by
    cases hr : l.reverse with
    | nil => rfl
    | cons c t =>
      rw [List.dropWhile_cons, if_neg ?_]
      simp only [Bool.not_eq_true]
      apply h2
      rw [← List.head?_reverse, hr]
      rfl
  rw [hrev, List.reverse_reverse]

/-! ## Lemmas: Python-dict insertion -/

theorem find?_map_update (k : String) (v : PyValue) :
    ∀ d : List (String × PyValue), d.any (fun q => q.1 == k) = true →
      (d.map (fun p => if p.1 == k then (k, v) else p)).find?
        (fun q => q.1 == k) = some (k, v) := by
  intro d
  induction d with
  | nil => intro h; simp at h
  | cons p d ih =>
    intro h
    by_cases hp : p.1 = k
    · simp [List.find?, hp]
    · have hp' : (p.1 == k) = false := by simp [hp]
      have hd : d.any (fun q => q.1 == k) = true := by
        simp only [List.any_cons, hp', Bool.false_or] at h
        exact h
      simp only [List.map_cons, hp', Bool.false_eq_true, if_false, List.find?]
      exact ih hd

theorem find?_any_false {α : Type} (p : α → Bool) :
    ∀ d : List α, d.any p = false → d.find? p = none := by
  intro d
  induction d with
  | nil => intro _; rfl
  | cons x d ih =>
    intro h
    simp only [List.any_cons, Bool.or_eq_false_iff] at h
    rw [List.find?, h.1]
    exact ih h.2

theorem lookupD_dictInsert_same (d : List (String × PyValue)) (k : String)
    (v : PyValue) : lookupD (dictInsert d k v) k = some v := by
  unfold dictInsert lookupD
  by_cases hany : d.any (fun q => q.1 == k) = true
  · rw [if_pos hany, find?_map_update k v d hany]
    rfl
  · have hfalse : d.any (fun q => q.1 == k) = false := by
      cases h2 : d.any (fun q => q.1 == k) with
      | false => rfl
      | true => exact absurd h2 hany
    rw [if_neg hany, List.find?_append, find?_any_false _ d hfalse]
    simp [List.find?]

theorem find?_map_update_other {k k2 : String} (v : PyValue)
    (hne : ¬ k2 = k) :
    ∀ d : List (String × PyValue),
      (d.map (fun p => if p.1 == k then (k, v) else p)).find?
        (fun q => q.1 == k2) = d.find? (fun q => q.1 == k2) := by
  intro d
  induction d with
  | nil => rfl
  | cons p d ih =>
    by_cases hp : p.1 = k
    · have hk2 : (k == k2) = false := by
        simp only [beq_eq_false_iff_ne, ne_eq]
        exact fun h => hne h.symm
      have hp2 : (p.1 == k2) = false := by rw [hp]; exact hk2
      have hpk : (p.1 == k) = true := by simp [hp]
      simp only [List.map_cons, hpk, if_true, List.find?, hk2, hp2]
      exact ih
    · have hp' : (p.1 == k) = false := by simp [hp]
      simp only [List.map_cons, hp', Bool.false_eq_true, if_false, List.find?]
      cases hq : (p.1 == k2) with
      | true => rfl
      | false => exact ih

theorem lookupD_dictInsert_other (d : List (String × PyValue)) (k k2 : String)
    (v : PyValue) (hne : ¬ k2 = k) :
    lookupD (dictInsert d k v) k2 = lookupD d k2 := by
  unfold dictInsert lookupD
  by_cases hany : d.any (fun q => q.1 == k) = true
  · rw [if_pos hany, find?_map_update_other v hne d]
  · have hk2 : (((k, v) : String × PyValue).1 == k2) = false := by
      simp only [beq_eq_false_iff_ne, ne_eq]
      exact fun h => hne h.symm
    rw [if_neg hany, List.find?_append]
    cases hfd : d.find? (fun q => q.1 == k2) with
    | some q => rfl
    | none =>
      simp only [Option.none_orElse, List.find?, hk2]
      rfl

/-! ## Lemmas: serialized text contains no control characters -/

theorem all_mem_nil (P : Char → Prop) : ∀ c ∈ ([] : List Char), P c :=
  fun c hc => absurd hc (List.not_mem_nil c)

theorem all_mem_cons {P : Char → Prop} {d : Char} {b : List Char}
    (hd : P d) (hb : ∀ c ∈ b, P c) : ∀ c ∈ d :: b, P c := by
  intro c hc
  rcases List.mem_cons.1 hc with rfl | hc
  · exact hd
  · exact hb c hc

theorem all_mem_append {P : Char → Prop} {a b : List Char}
    (ha : ∀ c ∈ a, P c) (hb : ∀ c ∈ b, P c) : ∀ c ∈ a ++ b, P c := by
  intro c hc
  rcases List.mem_append.1 hc with hc | hc
  · exact ha c hc
  · exact hb c hc

theorem hexDigitChar_ge_space : ∀ m, m < 16 → 0x20 ≤ (hexDigitChar m).toNat := by
  decide

theorem hex4_ge_space (n : Nat) : ∀ c ∈ hex4 n, 0x20 ≤ c.toNat := by
  unfold hex4
  refine all_mem_cons (hexDigitChar_ge_space _ (Nat.mod_lt _ (by omega)))
    (all_mem_cons (hexDigitChar_ge_space _ (Nat.mod_lt _ (by omega)))
      (all_mem_cons (hexDigitChar_ge_space _ (Nat.mod_lt _ (by omega)))
        (all_mem_cons (hexDigitChar_ge_space _ (Nat.mod_lt _ (by omega)))
          (all_mem_nil _))))

theorem escChar_ge_space (c : Char) : ∀ d ∈ escChar c, 0x20 ≤ d.toNat := by
  unfold escChar
  by_cases h1 : c = '"'
  · rw [if_pos h1]; exact all_mem_cons (by decide) (all_mem_cons (by decide) (all_mem_nil _))
  rw [if_neg h1]
  by_cases h2 : c = '\\'
  · rw [if_pos h2]; exact all_mem_cons (by decide) (all_mem_cons (by decide) (all_mem_nil _))
  rw [if_neg h2]
  by_cases h3 : c = '\n'
  · rw [if_pos h3]; exact all_mem_cons (by decide) (all_mem_cons (by decide) (all_mem_nil _))
  rw [if_neg h3]
  by_cases h4 : c = '\r'
  · rw [if_pos h4]; exact all_mem_cons (by decide) (all_mem_cons (by decide) (all_mem_nil _))
  rw [if_neg h4]
  by_cases h5 : c = '\t'
  · rw [if_pos h5]; exact all_mem_cons (by decide) (all_mem_cons (by decide) (all_mem_nil _))
  rw [if_neg h5]
  by_cases h6 : c = '\x08'
  · rw [if_pos h6]; exact all_mem_cons (by decide) (all_mem_cons (by decide) (all_mem_nil _))
  rw [if_neg h6]
  by_cases h7 : c = '\x0c'
  · rw [if_pos h7]; exact all_mem_cons (by decide) (all_mem_cons (by decide) (all_mem_nil _))
  rw [if_neg h7]
  by_cases h8 : 0x20 ≤ c.toNat ∧ c.toNat ≤ 0x7e
  · rw [if_pos h8]
    exact all_mem_cons (by omega) (all_mem_nil _)
  rw [if_neg h8]
  by_cases h9 : c.toNat < 0x10000
  · rw [if_pos h9]
    exact all_mem_cons (by decide) (all_mem_cons (by decide) (hex4_ge_space _))
  · rw [if_neg h9]
    exact all_mem_cons (by decide) (all_mem_cons (by decide)
      (all_mem_append (hex4_ge_space _)
        (all_mem_cons (by decide) (all_mem_cons (by decide) (hex4_ge_space _)))))

theorem escBody_ge_space (l : List Char) : ∀ d ∈ escBody l, 0x20 ≤ d.toNat := by
  induction l with
  | nil => exact all_mem_nil _
  | cons c l ih =>
    show ∀ d ∈ escChar c ++ escBody l, _
    exact all_mem_append (escChar_ge_space c) ih

theorem intToChars_ge_space (m : Int) : ∀ c ∈ intToChars m, 0x20 ≤ c.toNat := by
  intro c hc
  cases m with
  | ofNat n =>
    have := isDigitC_toNat (natToChars_digits n c hc)
    omega
  | negSucc k =>
    rcases List.mem_cons.1 hc with rfl | hc
    · decide
    · have := isDigitC_toNat (natToChars_digits (k + 1) c hc)
      omega

theorem escString_ge_space (s : String) : ∀ c ∈ escString s, 0x20 ≤ c.toNat := by
  unfold escString
  exact all_mem_cons (by decide)
    (all_mem_append (escBody_ge_space s.data)
      (all_mem_cons (by decide) (all_mem_nil _)))

theorem dumpV_ge_space_all : ∀ N : Nat,
    (∀ v, szV v ≤ N → ∀ c ∈ dumpV v, 0x20 ≤ c.toNat) ∧
    (∀ xs, szL xs ≤ N → ∀ c ∈ dumpElems xs, 0x20 ≤ c.toNat) ∧
    (∀ fs, szM fs ≤ N → ∀ c ∈ dumpMembers fs, 0x20 ≤ c.toNat) := by
  intro N
  induction N with
  | zero =>
    refine ⟨?_, ?_, ?_⟩
    · intro v hv; have := szV_pos v; omega
    · intro xs h
      cases xs with
      | nil => exact all_mem_nil _
      | cons x xs => simp [szL] at h
    · intro fs h
      cases fs with
      | nil => exact all_mem_nil _
      | cons f fs =>
        obtain ⟨k, v⟩ := f
        simp [szM] at h
  | succ N ihN =>
    obtain ⟨ih1, ih2, ih3⟩ := ihN
    refine ⟨?_, ?_, ?_⟩
    · intro v hv
      cases v with
      | vnone => decide
      | vbool b => cases b <;> decide
      | vint n => exact intToChars_ge_space n
      | vstr s => exact escString_ge_space s
      | vlist xs =>
        cases xs with
        | nil => decide
        | cons x xs =>
          have hszv : szV (.vlist (x :: xs)) = 1 + (1 + szV x + szL xs) := by
            simp [szV, szL]
          show ∀ c ∈ '[' :: (dumpV x ++ dumpElems xs) ++ [']'], _
          refine all_mem_cons (by decide) (all_mem_append
            (all_mem_append (ih1 x (by rw [hszv] at hv; omega))
              (ih2 xs ?_))
            (all_mem_cons (by decide) (all_mem_nil _)))
          have := szV_pos x
          rw [hszv] at hv; omega
      | vdict fs =>
        cases fs with
        | nil => decide
        | cons fld fs =>
          obtain ⟨k, v⟩ := fld
          have hszv : szV (.vdict ((k, v) :: fs)) = 1 + (1 + szV v + szM fs) := by
            simp [szV, szM]
          show ∀ c ∈ '\x7b' :: (dumpMember (k, v) ++ dumpMembers fs) ++ ['\x7d'], _
          refine all_mem_cons (by decide) (all_mem_append
            (all_mem_append ?_ (ih3 fs ?_))
            (all_mem_cons (by decide) (all_mem_nil _)))
          · show ∀ c ∈ escString k ++ ':' :: ' ' :: dumpV v, _
            exact all_mem_append (escString_ge_space k)
              (all_mem_cons (by decide) (all_mem_cons (by decide)
                (ih1 v (by rw [hszv] at hv; omega))))
          · have := szV_pos v
            rw [hszv] at hv; omega
    · intro xs hxs
      cases xs with
      | nil => exact all_mem_nil _
      | cons x xs =>
        have hsz : szL (x :: xs) = 1 + szV x + szL xs := by simp [szL]
        show ∀ c ∈ ',' :: ' ' :: (dumpV x ++ dumpElems xs), _
        refine all_mem_cons (by decide) (all_mem_cons (by decide)
          (all_mem_append (ih1 x (by rw [hsz] at hxs; omega)) (ih2 xs ?_)))
        have := szV_pos x
        rw [hsz] at hxs; omega
    · intro fs hfs
      cases fs with
      | nil => exact all_mem_nil _
      | cons fld fs =>
        obtain ⟨k, v⟩ := fld
        have hsz : szM ((k, v) :: fs) = 1 + szV v + szM fs := by simp [szM]
        show ∀ c ∈ ',' :: ' ' :: (dumpMember (k, v) ++ dumpMembers fs), _
        refine all_mem_cons (by decide) (all_mem_cons (by decide)
          (all_mem_append ?_ (ih3 fs ?_)))
        · show ∀ c ∈ escString k ++ ':' :: ' ' :: dumpV v, _
          exact all_mem_append (escString_ge_space k)
            (all_mem_cons (by decide) (all_mem_cons (by decide)
              (ih1 v (by rw [hsz] at hfs; omega))))
        · have := szV_pos v
          rw [hsz] at hfs; omega

theorem dumpV_ge_space (v : PyValue) : ∀ c ∈ dumpV v, 0x20 ≤ c.toNat :=
  (dumpV_ge_space_all (szV v)).1 v le_rfl

theorem getLast?_mem_list : ∀ (l : List Char) (c : Char),
    l.getLast? = some c → c ∈ l := by
  intro l
  induction l with
  | nil => intro c h; simp at h
  | cons a t ih =>
    intro c h
    cases t with
    | nil => simp at h; simp [h]
    | cons b t' =>
      rw [List.getLast?_cons_cons] at h
      exact List.mem_cons_of_mem a (ih c h)

theorem head?_mem_list : ∀ (l : List Char) (c : Char), l.head? = some c → c ∈ l
  | [], c, h => by simp at h
  | a :: t, c, h => by
    simp [List.head?] at h
    simp [h]

theorem pyWs_false_of_ge33 {c : Char} (h : 33 ≤ c.toNat) : pyWs c = false := by
  have h1 : ¬ c = ' ' := fun he => by subst he; exact absurd h (by decide)
  have h2 : ¬ c = '\t' := fun he => by subst he; exact absurd h (by decide)
  have h3 : ¬ c = '\n' := fun he => by subst he; exact absurd h (by decide)
  have h4 : ¬ c = '\r' := fun he => by subst he; exact absurd h (by decide)
  have h5 : ¬ c = '\x0b' := fun he => by subst he; exact absurd h (by decide)
  have h6 : ¬ c = '\x0c' := fun he => by subst he; exact absurd h (by decide)
  simp [pyWs, h1, h2, h3, h4, h5, h6]

theorem stripC_eq_self_of_all {l : List Char} (h : ∀ c ∈ l, pyWs c = false) :
    stripC l = l :=
  stripC_eq_self l (fun c hc => h c (head?_mem_list l c hc))
    (fun c hc => h c (getLast?_mem_list l c hc))

theorem stripC_eq_self_ends {l : List Char} {a b : Char}
    (h1 : l.head? = some a) (ha : pyWs a = false)
    (h2 : l.getLast? = some b) (hb : pyWs b = false) :
    stripC l = l :=
  stripC_eq_self l
    (fun c hc => by
      have h3 := h1.symm.trans hc
      injection h3 with h4
      rw [← h4]; exact ha)
    (fun c hc => by
      have h3 := h2.symm.trans hc
      injection h3 with h4
      rw [← h4]; exact hb)

theorem hasCRLF_false_of_ge : ∀ l : List Char, (∀ c ∈ l, 0x20 ≤ c.toNat) →
    hasCRLF l = false
  | [], _ => rfl
  | [_], _ => rfl
  | c :: c2 :: rest, h => by
    have h2 : hasCRLF (c2 :: rest) = false :=
      hasCRLF_false_of_ge (c2 :: rest) (fun x hx => h x (List.mem_cons_of_mem c hx))
    have hn : ¬ c2 = '\n' := fun he => by
      subst he
      exact absurd (h '\n' (by simp)) (by decide)
    show ((c == '\r' && c2 == '\n') || hasCRLF (c2 :: rest)) = false
    simp [h2, hn]

theorem isPrefixOf_self_append : ∀ (p r : List Char), p.isPrefixOf (p ++ r) = true
  | [], _ => by simp [List.isPrefixOf]
  | a :: p, r => by
    show List.isPrefixOf (a :: p) ((a :: p) ++ r) = true
    simp [List.isPrefixOf, isPrefixOf_self_append p r]

theorem jsonMarked_self_append (r : List Char) :
    jsonMarked ("JSON::".data ++ r) = true :=
  isPrefixOf_self_append _ _

theorem jsonMarked_false_of_head {c : Char} {t : List Char} (h : ¬ c = 'J') :
    jsonMarked (c :: t) = false := by
  show List.isPrefixOf ['J', 'S', 'O', 'N', ':', ':'] (c :: t) = false
  have h2 : ('J' == c) = false := by simp; exact fun he => h he.symm
  simp [List.isPrefixOf, h2]

theorem dashdigit_props {c : Char} (h : c = '-' ∨ isDigitC c = true) :
    ¬ c = 'J' ∧ ¬ c = 't' ∧ ¬ c = 'f' ∧ ¬ c = '=' ∧ pyWs c = false := by
  have hn : 45 ≤ c.toNat ∧ c.toNat ≤ 57 := by
    rcases h with h | h
    · subst h; exact ⟨by decide, by decide⟩
    · have := isDigitC_toNat h; omega
  exact ⟨char_ne_of_toNat_ne (show c.toNat ≠ 74 by omega),
    char_ne_of_toNat_ne (show c.toNat ≠ 116 by omega),
    char_ne_of_toNat_ne (show c.toNat ≠ 102 by omega),
    char_ne_of_toNat_ne (show c.toNat ≠ 61 by omega),
    pyWs_false_of_ge33 (by omega)⟩

theorem intToChars_all_dj (m : Int) :
    ∀ c ∈ intToChars m, c = '-' ∨ isDigitC c = true := by
  cases m with
  | ofNat n =>
    intro c hc
    simp only [intToChars] at hc
    exact Or.inr (natToChars_digits n c hc)
  | negSucc k =>
    intro c hc
    simp only [intToChars] at hc
    rcases List.mem_cons.mp hc with h | h
    · exact Or.inl h
    · exact Or.inr (natToChars_digits (k + 1) c h)

theorem intToChars_head_dj (m : Int) :
    ∃ c t, intToChars m = c :: t ∧ (c = '-' ∨ isDigitC c = true) := by
  cases m with
  | ofNat n =>
    obtain ⟨c, t, he, hd, _⟩ := natToChars_head n
    exact ⟨c, t, he, Or.inr hd⟩
  | negSucc k =>
    exact ⟨'-', natToChars (k + 1), rfl, Or.inl rfl⟩

theorem dumpV_vlist_last (xs : List PyValue) :
    (dumpV (.vlist xs)).getLast? = some ']' := by
  cases xs with
  | nil => rfl
  | cons x xs =>
    show (('[' :: (dumpV x ++ dumpElems xs)) ++ [']']).getLast? = some ']'
    rw [List.getLast?_concat]

theorem dumpV_vdict_last (fs : List (String × PyValue)) :
    (dumpV (.vdict fs)).getLast? = some '\x7d' := by
  cases fs with
  | nil => rfl
  | cons f fs =>
    show (('\x7b' :: (dumpMember f ++ dumpMembers fs)) ++ ['\x7d']).getLast? = some '\x7d'
    rw [List.getLast?_concat]

theorem dumpV_ne_nil (v : PyValue) : ¬ dumpV v = [] := by
  intro h
  have := dumpV_length_pos v
  rw [h] at this
  simp at this

theorem jsonMarked_false_intToChars (n : Int) :
    jsonMarked (intToChars n) = false := by
  obtain ⟨c, t, he, hdj⟩ := intToChars_head_dj n
  rw [he]
  exact jsonMarked_false_of_head (dashdigit_props hdj).1

theorem renderVal_vint_data (n : Int) :
    (renderVal (.vint n)).data = intToChars n := rfl

theorem renderVal_vlist_data (xs : List PyValue) :
    (renderVal (.vlist xs)).data = "JSON::".data ++ dumpV (.vlist xs) := rfl

theorem renderVal_vdict_data (fs : List (String × PyValue)) :
    (renderVal (.vdict fs)).data = "JSON::".data ++ dumpV (.vdict fs) := rfl

theorem decodeText_renderVal (v : PyValue) (hv : cleanVal v) :
    decodeText (renderVal v).data = encDec v := by
  cases v with
  | vstr s =>
    obtain ⟨h1, _, _, h4, h5, h6⟩ := hv
    show coerceBool (jsonStep (stripC s.data)) = encDec (.vstr s)
    rw [h1]
    have hj : jsonStep s.data = .vstr s := by
      simp [jsonStep, h4, stringMk_data]
    rw [hj]
    simp [coerceBool, isStrLit, encDec, h5, h6]
  | vbool b => cases b <;> rfl
  | vint n =>
    obtain ⟨c, t, he, hdj⟩ := intToChars_head_dj n
    obtain ⟨hJ, hT, hF, hE, hW⟩ := dashdigit_props hdj
    simp only [encDec, renderVal_vint_data]
    show coerceBool (jsonStep (stripC (intToChars n))) = .vstr ⟨intToChars n⟩
    rw [stripC_eq_self_of_all
      (fun c2 hc2 => (dashdigit_props (intToChars_all_dj n c2 hc2)).2.2.2.2)]
    have hm := jsonMarked_false_intToChars n
    have hst : ¬ (String.mk (intToChars n)) = "true" := by
      intro he2
      have h3 : intToChars n = "true".data := congrArg String.data he2
      rw [he] at h3
      have h4 : c = 't' := by injection h3
      exact hT h4
    have hsf : ¬ (String.mk (intToChars n)) = "false" := by
      intro he2
      have h3 : intToChars n = "false".data := congrArg String.data he2
      rw [he] at h3
      have h4 : c = 'f' := by injection h3
      exact hF h4
    simp [jsonStep, hm, coerceBool, isStrLit, hst, hsf]
  | vnone => exact absurd hv (by simp [cleanVal])
  | vlist xs =>
    have hne := dumpV_ne_nil (.vlist xs)
    have hlast : ("JSON::".data ++ dumpV (.vlist xs)).getLast? = some ']' := by
      rw [List.getLast?_append_of_ne_nil _ hne]
      exact dumpV_vlist_last xs
    have hhead : ("JSON::".data ++ dumpV (.vlist xs)).head? = some 'J' := rfl
    have hstrip := stripC_eq_self_ends hhead (by decide) hlast (by decide)
    simp only [encDec, renderVal_vlist_data]
    show coerceBool (jsonStep (stripC ("JSON::".data ++ dumpV (.vlist xs)))) =
      PyValue.vlist xs
    rw [hstrip]
    have hm : jsonMarked
        ('J' :: 'S' :: 'O' :: 'N' :: ':' :: ':' :: dumpV (.vlist xs)) = true :=
      jsonMarked_self_append _
    have hdrop : List.drop JSON_PREFIX.length
        ('J' :: 'S' :: 'O' :: 'N' :: ':' :: ':' :: dumpV (.vlist xs))
        = dumpV (.vlist xs) := List.drop_left "JSON::".data _
    simp [jsonStep, hm, hdrop, loadsChars_dumpV, coerceBool, isStrLit]
  | vdict fs =>
    have hne := dumpV_ne_nil (.vdict fs)
    have hlast : ("JSON::".data ++ dumpV (.vdict fs)).getLast? = some '\x7d' := by
      rw [List.getLast?_append_of_ne_nil _ hne]
      exact dumpV_vdict_last fs
    have hhead : ("JSON::".data ++ dumpV (.vdict fs)).head? = some 'J' := rfl
    have hstrip := stripC_eq_self_ends hhead (by decide) hlast (by decide)
    simp only [encDec, renderVal_vdict_data]
    show coerceBool (jsonStep (stripC ("JSON::".data ++ dumpV (.vdict fs)))) =
      PyValue.vdict fs
    rw [hstrip]
    have hm : jsonMarked
        ('J' :: 'S' :: 'O' :: 'N' :: ':' :: ':' :: dumpV (.vdict fs)) = true :=
      jsonMarked_self_append _
    have hdrop : List.drop JSON_PREFIX.length
        ('J' :: 'S' :: 'O' :: 'N' :: ':' :: ':' :: dumpV (.vdict fs))
        = dumpV (.vdict fs) := List.drop_left "JSON::".data _
    simp [jsonStep, hm, hdrop, loadsChars_dumpV, coerceBool, isStrLit]

theorem renderVal_no_crlf (v : PyValue) (hv : cleanVal v) :
    hasCRLF (renderVal v).data = false := by
  cases v with
  | vstr s => exact hv.2.2.1
  | vbool b => cases b <;> rfl
  | vint n =>
    exact hasCRLF_false_of_ge _ (fun c hc => intToChars_ge_space n c hc)
  | vnone => exact absurd hv (by simp [cleanVal])
  | vlist xs =>
    rw [renderVal_vlist_data]
    refine hasCRLF_false_of_ge _ (fun c hc => ?_)
    rcases List.mem_append.mp hc with h | h
    · exact (by decide : ∀ c ∈ "JSON::".data, 0x20 ≤ c.toNat) c h
    · exact dumpV_ge_space _ c h
  | vdict fs =>
    rw [renderVal_vdict_data]
    refine hasCRLF_false_of_ge _ (fun c hc => ?_)
    rcases List.mem_append.mp hc with h | h
    · exact (by decide : ∀ c ∈ "JSON::".data, 0x20 ≤ c.toNat) c h
    · exact dumpV_ge_space _ c h

theorem renderVal_no_eq (v : PyValue) (hv : cleanVal v) :
    ∀ c ∈ (renderVal v).data, ¬ c = '=' := by
  cases v with
  | vstr s => exact hv.2.1
  | vbool b => cases b <;> decide
  | vint n =>
    exact fun c hc => (dashdigit_props (intToChars_all_dj n c hc)).2.2.2.1
  | vnone => exact absurd hv (by simp [cleanVal])
  | vlist xs =>
    rw [renderVal_vlist_data]
    intro c hc
    rcases List.mem_append.mp hc with h | h
    · exact (by decide : ∀ c ∈ "JSON::".data, ¬ c = '=') c h
    · exact hv c h
  | vdict fs =>
    rw [renderVal_vdict_data]
    intro c hc
    rcases List.mem_append.mp hc with h | h
    · exact (by decide : ∀ c ∈ "JSON::".data, ¬ c = '=') c h
    · exact hv c h

theorem find?_map_updS (k : String) (v : String) :
    ∀ d : List (String × String), d.any (fun q => q.1 == k) = true →
      (d.map (fun p => if p.1 == k then (k, v) else p)).find?
        (fun q => q.1 == k) = some (k, v) := by
  intro d
  induction d with
  | nil => intro h; simp at h
  | cons p d ih =>
    intro h
    by_cases hp : p.1 = k
    · simp [List.find?, hp]
    · have hp' : (p.1 == k) = false := by simp [hp]
      have hd : d.any (fun q => q.1 == k) = true := by
        simp only [List.any_cons, hp', Bool.false_or] at h
        exact h
      simp only [List.map_cons, hp', Bool.false_eq_true, if_false, List.find?]
      exact ih hd

theorem find?_map_updS_other {k k2 : String} (v : String)
    (hne : ¬ k2 = k) :
    ∀ d : List (String × String),
      (d.map (fun p => if p.1 == k then (k, v) else p)).find?
        (fun q => q.1 == k2) = d.find? (fun q => q.1 == k2) := by
  intro d
  induction d with
  | nil => rfl
  | cons p d ih =>
    by_cases hp : p.1 = k
    · have hk2 : (k == k2) = false := by
        simp only [beq_eq_false_iff_ne, ne_eq]
        exact fun h => hne h.symm
      have hp2 : (p.1 == k2) = false := by rw [hp]; exact hk2
      have hpk : (p.1 == k) = true := by simp [hp]
      simp only [List.map_cons, hpk, if_true, List.find?, hk2, hp2]
      exact ih
    · have hp' : (p.1 == k) = false := by simp [hp]
      simp only [List.map_cons, hp', Bool.false_eq_true, if_false, List.find?]
      cases hq : (p.1 == k2) with
      | true => rfl
      | false => exact ih

theorem lookupS_setProp_same (d : List (String × String)) (k v : String) :
    lookupS (setProp d k v) k = some v := by
  unfold setProp lookupS
  by_cases hany : d.any (fun q => q.1 == k) = true
  · rw [if_pos hany, find?_map_updS k v d hany]
    rfl
  · have hfalse : d.any (fun q => q.1 == k) = false := by
      cases h2 : d.any (fun q => q.1 == k) with
      | false => rfl
      | true => exact absurd h2 hany
    rw [if_neg hany, List.find?_append, find?_any_false _ d hfalse]
    simp [List.find?]

theorem lookupS_setProp_other (d : List (String × String)) (k k2 v : String)
    (hne : ¬ k2 = k) :
    lookupS (setProp d k v) k2 = lookupS d k2 := by
  unfold setProp lookupS
  by_cases hany : d.any (fun q => q.1 == k) = true
  · rw [if_pos hany, find?_map_updS_other v hne d]
  · have hk2 : (((k, v) : String × String).1 == k2) = false := by
      simp only [beq_eq_false_iff_ne, ne_eq]
      exact fun h => hne h.symm
    rw [if_neg hany, List.find?_append]
    cases hfd : d.find? (fun q => q.1 == k2) with
    | some q => rfl
    | none =>
      simp only [Option.none_orElse, List.find?, hk2]
      rfl

theorem setProp_fresh (d : List (String × String)) (k v : String)
    (h : ∀ p ∈ d, ¬ p.1 = k) : setProp d k v = d ++ [(k, v)] := by
  unfold setProp
  have h2 : d.any (fun p => p.1 == k) = false := by
    rw [List.any_eq_false]
    intro p hp
    simp [h p hp]
  simp [h2]

theorem imprintProps_frame :
    ∀ (M : List (String × PyValue)) (ps : List (String × String)) (k : String),
    (∀ p ∈ M, ¬ p.1 = k) →
    lookupS (imprintProps ps M) k = lookupS ps k
  | [], _, _, _ => rfl
  | (k2, v) :: M, ps, k, h => by
    show lookupS (imprintProps (setProp ps k2 (renderVal v)) M) k = lookupS ps k
    rw [imprintProps_frame M _ k (fun p hp => h p (List.mem_cons_of_mem _ hp))]
    exact lookupS_setProp_other ps k2 k (renderVal v)
      (fun he => h (k2, v) (List.mem_cons_self _ _) he.symm)

theorem imprintProps_hit (M : List (String × PyValue)) (ps : List (String × String))
    (k : String) (v : PyValue) (hmem : (k, v) ∈ M)
    (hnd : (M.map Prod.fst).Nodup) :
    lookupS (imprintProps ps M) k = some (renderVal v) := by
  obtain ⟨s, t, rfl⟩ := List.append_of_mem hmem
  rw [List.map_append, List.map_cons] at hnd
  have hnd2 : k ∉ t.map Prod.fst :=
    (List.nodup_cons.mp hnd.of_append_right).1
  have hk : ∀ p ∈ t, ¬ p.1 = k := by
    intro p hp he
    exact hnd2 (by rw [← he]; exact List.mem_map_of_mem Prod.fst hp)
  have hsplit : imprintProps ps (s ++ (k, v) :: t)
      = imprintProps (setProp (imprintProps ps s) k (renderVal v)) t := by
    unfold imprintProps
    rw [List.foldl_append]
    rfl
  rw [hsplit, imprintProps_frame t _ k hk, lookupS_setProp_same]

theorem imprintProps_fresh :
    ∀ (M : List (String × PyValue)) (ps : List (String × String)),
    (∀ p ∈ M, ∀ q ∈ ps, ¬ q.1 = p.1) → (M.map Prod.fst).Nodup →
    imprintProps ps M = ps ++ M.map (fun kv => (kv.1, renderVal kv.2))
  | [], ps, _, _ => by simp [imprintProps]
  | (k, v) :: M, ps, h, hnd => by
    rw [List.map_cons] at hnd
    have hnd2 := List.nodup_cons.mp hnd
    have hfresh : ∀ q ∈ ps, ¬ q.1 = k :=
      fun q hq => h (k, v) (List.mem_cons_self _ _) q hq
    show imprintProps (setProp ps k (renderVal v)) M
      = ps ++ ((k, renderVal v) :: M.map (fun kv => (kv.1, renderVal kv.2)))
    rw [setProp_fresh ps k (renderVal v) hfresh,
      imprintProps_fresh M (ps ++ [(k, renderVal v)])
        (fun p hp q hq => by
          rcases List.mem_append.mp hq with hq2 | hq2
          · exact h p (List.mem_cons_of_mem _ hp) q hq2
          · have hq3 : q = (k, renderVal v) := by simpa using hq2
            rw [hq3]
            intro he
            have h5 := List.mem_map_of_mem Prod.fst hp
            rw [← he] at h5
            exact hnd2.1 h5)
        hnd2.2,
      List.append_assoc]
    rfl

theorem hasCRLF_append_mid (m : Char) (hm1 : ¬ m = '\r') (hm2 : ¬ m = '\n') :
    ∀ a b : List Char, hasCRLF a = false → hasCRLF b = false →
    hasCRLF (a ++ m :: b) = false
  | [], b, _, hb => by
    cases b with
    | nil => rfl
    | cons d b' =>
      show ((m == '\r' && d == '\n') || hasCRLF (d :: b')) = false
      simp [hb, hm1]
  | [c], b, _, hb => by
    cases b with
    | nil =>
      show ((c == '\r' && m == '\n') || hasCRLF [m]) = false
      simp [hm2, hasCRLF]
    | cons d b' =>
      show ((c == '\r' && m == '\n') || hasCRLF (m :: d :: b')) = false
      have h2 : hasCRLF (m :: d :: b') = false := by
        show ((m == '\r' && d == '\n') || hasCRLF (d :: b')) = false
        simp [hb, hm1]
      simp [hm2, h2]
  | c :: c2 :: a', b, ha, hb => by
    obtain ⟨h1, h2⟩ := hasCRLF_cons ha
    have h3 := hasCRLF_append_mid m hm1 hm2 (c2 :: a') b h2 hb
    have h4 : (c == '\r' && c2 == '\n') = false := by
      by_cases hc : c = '\r'
      · subst hc
        have h5 : ¬ c2 = '\n' := fun hc2 => h1 ⟨rfl, hc2⟩
        simp [h5]
      · simp [hc]
    show ((c == '\r' && c2 == '\n') || hasCRLF ((c2 :: a') ++ m :: b)) = false
    rw [h4]
    simp only [Bool.false_or]
    exact h3

theorem entryLine_no_crlf {k rv : String} (hk : hasCRLF k.data = false)
    (hv : hasCRLF rv.data = false) :
    hasCRLF (entryLine (k, rv)) = false :=
  hasCRLF_append_mid '=' (by decide) (by decide) k.data rv.data hk hv

theorem splitCRLF_joinCRLF : ∀ ls : List (List Char), ¬ ls = [] →
    (∀ l ∈ ls, hasCRLF l = false) → splitCRLF (joinCRLF ls) = ls
  | [], h, _ => absurd rfl h
  | [l], _, h => by
    show splitCRLF l = [l]
    exact splitCRLF_no_sep l (h l (List.mem_singleton_self l))
  | l :: l2 :: ls, _, h => by
    show splitCRLF (l ++ '\r' :: '\n' :: joinCRLF (l2 :: ls)) = l :: l2 :: ls
    rw [splitCRLF_append l _ (h l (List.mem_cons_self _ _)),
      splitCRLF_joinCRLF (l2 :: ls) (by simp)
        (fun x hx => h x (List.mem_cons_of_mem _ hx))]

theorem renderBuffer_data (props : List (String × String)) :
    (renderBuffer props).data = joinCRLF (props.map entryLine) := rfl

theorem renderBuffer_ne_empty (props : List (String × String)) (h : ¬ props = []) :
    ¬ renderBuffer props = "" := by
  intro he
  have hd : joinCRLF (props.map entryLine) = [] := congrArg String.data he
  cases props with
  | nil => exact h rfl
  | cons p rest =>
    cases rest with
    | nil =>
      have h2 : p.1.data ++ '=' :: p.2.data = [] := hd
      simp at h2
    | cons p2 rest2 =>
      have h2 : entryLine p ++ '\r' :: '\n' ::
          joinCRLF ((p2 :: rest2).map entryLine) = [] := hd
      simp at h2

theorem readLine_entry (d : List (String × PyValue)) (k rv : String)
    (hk : cleanKey k) (hv : ∀ c ∈ rv.data, ¬ c = '=') :
    readLine d (entryLine (k, rv)) = dictInsert d k (decodeText rv.data) := by
  unfold readLine
  show (match splitOnChar '=' (k.data ++ '=' :: rv.data) with
    | [k2, v2] => dictInsert d ⟨stripC k2⟩ (decodeText v2)
    | _ => d) = dictInsert d k (decodeText rv.data)
  rw [splitOnChar_line k.data rv.data hk.2.1 hv]
  show dictInsert d ⟨stripC k.data⟩ (decodeText rv.data) = _
  rw [hk.1, stringMk_data]

theorem foldl_readLine_entries :
    ∀ (M : List (String × PyValue)) (d : List (String × PyValue)),
    (∀ p ∈ M, cleanKey p.1 ∧ cleanVal p.2) →
    ((M.map (fun kv => entryLine (kv.1, renderVal kv.2))).foldl readLine d)
      = M.foldl (fun d2 kv => dictInsert d2 kv.1 (encDec kv.2)) d
  | [], _, _ => rfl
  | (k, v) :: M, d, h => by
    have hp := h (k, v) (List.mem_cons_self _ _)
    show ((M.map (fun kv => entryLine (kv.1, renderVal kv.2))).foldl readLine
        (readLine d (entryLine (k, renderVal v))))
      = M.foldl (fun d2 kv => dictInsert d2 kv.1 (encDec kv.2))
        (dictInsert d k (encDec v))
    rw [readLine_entry d k (renderVal v) hp.1 (renderVal_no_eq v hp.2),
      decodeText_renderVal v hp.2]
    exact foldl_readLine_entries M _ (fun p hp2 => h p (List.mem_cons_of_mem _ hp2))

theorem lookupD_foldl_frame :
    ∀ (M : List (String × PyValue)) (d : List (String × PyValue)) (k : String),
    (∀ p ∈ M, ¬ p.1 = k) →
    lookupD (M.foldl (fun d2 kv => dictInsert d2 kv.1 (encDec kv.2)) d) k
      = lookupD d k
  | [], _, _, _ => rfl
  | (k2, v) :: M, d, k, h => by
    show lookupD (M.foldl (fun d2 kv => dictInsert d2 kv.1 (encDec kv.2))
      (dictInsert d k2 (encDec v))) k = lookupD d k
    rw [lookupD_foldl_frame M _ k (fun p hp => h p (List.mem_cons_of_mem _ hp)),
      lookupD_dictInsert_other d k2 k (encDec v)
        (fun he => h (k2, v) (List.mem_cons_self _ _) he.symm)]

theorem lookupD_foldl_hit (M : List (String × PyValue))
    (d : List (String × PyValue)) (k : String) (v : PyValue)
    (hmem : (k, v) ∈ M) (hnd : (M.map Prod.fst).Nodup) :
    lookupD (M.foldl (fun d2 kv => dictInsert d2 kv.1 (encDec kv.2)) d) k
      = some (encDec v) := by
  obtain ⟨s, t, rfl⟩ := List.append_of_mem hmem
  rw [List.map_append, List.map_cons] at hnd
  have hnd2 : k ∉ t.map Prod.fst :=
    (List.nodup_cons.mp hnd.of_append_right).1
  have hk : ∀ p ∈ t, ¬ p.1 = k := by
    intro p hp he
    exact hnd2 (by rw [← he]; exact List.mem_map_of_mem Prod.fst hp)
  rw [List.foldl_append]
  show lookupD (t.foldl (fun d2 kv => dictInsert d2 kv.1 (encDec kv.2))
    (dictInsert (s.foldl (fun d2 kv => dictInsert d2 kv.1 (encDec kv.2)) d)
      k (encDec v))) k = some (encDec v)
  rw [lookupD_foldl_frame t _ k hk, lookupD_dictInsert_same]

theorem readNode_imprintProps (nm : String) (M : List (String × PyValue))
    (hM : ∀ p ∈ M, cleanKey p.1 ∧ cleanVal p.2)
    (hnd : (M.map Prod.fst).Nodup) (hne : ¬ M = []) :
    readNode ⟨nm, imprintProps [] M⟩
      = dictInsert (M.foldl (fun d kv => dictInsert d kv.1 (encDec kv.2)) [])
          "instance_node" (.vstr nm) := by
  unfold readNode readBuf
  have hprops : imprintProps [] M = M.map (fun kv => (kv.1, renderVal kv.2)) :=
    imprintProps_fresh M [] (fun p _ q hq => absurd hq (List.not_mem_nil q)) hnd
  show (if renderBuffer (MaxNode.mk nm (imprintProps [] M)).props = "" then []
    else dictInsert
      ((splitCRLF (renderBuffer (MaxNode.mk nm (imprintProps [] M)).props).data).foldl
        readLine [])
      "instance_node" (.vstr (MaxNode.mk nm (imprintProps [] M)).name)) = _
  have hpr : (MaxNode.mk nm (imprintProps [] M)).props
      = M.map (fun kv => (kv.1, renderVal kv.2)) := hprops
  rw [hpr]
  have hmne : ¬ M.map (fun kv => (kv.1, renderVal kv.2)) = [] := by
    cases M with
    | nil => exact absurd rfl hne
    | cons p M2 => simp
  rw [if_neg (renderBuffer_ne_empty _ hmne), renderBuffer_data]
  have hmap : (M.map (fun kv => (kv.1, renderVal kv.2))).map entryLine
      = M.map (fun kv => entryLine (kv.1, renderVal kv.2)) := by
    rw [List.map_map]
    rfl
  rw [hmap]
  have hlne : ¬ M.map (fun kv => entryLine (kv.1, renderVal kv.2)) = [] := by
    cases M with
    | nil => exact absurd rfl hne
    | cons p M2 => simp
  have hlcrlf : ∀ l ∈ M.map (fun kv => entryLine (kv.1, renderVal kv.2)),
      hasCRLF l = false := by
    intro l hl
    obtain ⟨kv, hkv, rfl⟩ := List.mem_map.mp hl
    exact entryLine_no_crlf (hM kv hkv).1.2.2 (renderVal_no_crlf kv.2 (hM kv hkv).2)
  rw [splitCRLF_joinCRLF _ hlne hlcrlf, foldl_readLine_entries M [] hM]

/-- C1: corrected round-trip for `imprint` followed by `read` on a fresh
container node.  With stripped, separator-free, CRLF-free, non-colliding keys
and clean values, every key of `M` other than `instance_node` is decoded to
`encDec` of its value — integers come back as their decimal *strings*, not as
numbers, so the spec's "restores every key/value of M exactly" does not hold
as written — and `instance_node` is synthesized to the container's name. -/
theorem imprint_read_roundtrip (nm : String) (M : List (String × PyValue))
    (hM : ∀ p ∈ M, cleanKey p.1 ∧ cleanVal p.2)
    (hnd : (M.map Prod.fst).Nodup) (hne : ¬ M = []) :
    (imprint [⟨nm, []⟩] nm M).1 = true ∧
    ∃ n, findNode (imprint [⟨nm, []⟩] nm M).2 nm = some n ∧
      (∀ k v, (k, v) ∈ M → ¬ k = "instance_node" →
        lookupD (readNode n) k = some (encDec v)) ∧
      lookupD (readNode n) "instance_node" = some (.vstr nm) := by
  have hfind : findNode [(⟨nm, []⟩ : MaxNode)] nm = some ⟨nm, []⟩ := by
    simp [findNode, List.find?]
  have himp : imprint [(⟨nm, []⟩ : MaxNode)] nm M
      = (true, [⟨nm, imprintProps [] M⟩]) := by
    unfold imprint
    rw [hfind]
    unfold updateNode
    simp
  rw [himp]
  have hfind2 : findNode [(⟨nm, imprintProps [] M⟩ : MaxNode)] nm
      = some ⟨nm, imprintProps [] M⟩ := by
    simp [findNode, List.find?]
  refine ⟨rfl, ⟨nm, imprintProps [] M⟩, hfind2, ?_, ?_⟩
  · intro k v hmem hk
    rw [readNode_imprintProps nm M hM hnd hne,
      lookupD_dictInsert_other _ "instance_node" k (.vstr nm) hk,
      lookupD_foldl_hit M [] k v hmem hnd]
  · rw [readNode_imprintProps nm M hM hnd hne, lookupD_dictInsert_same]

/-- C1 witness: the round-trip theorem applied to the one-entry mapping
`a = 5` on the node `"node"`. -/
theorem imprint_read_roundtrip_witness :
    (imprint [⟨"node", []⟩] "node" [("a", PyValue.vint 5)]).1 = true ∧
    ∃ n, findNode (imprint [⟨"node", []⟩] "node"
        [("a", PyValue.vint 5)]).2 "node" = some n ∧
      (∀ k v, (k, v) ∈ [("a", PyValue.vint 5)] → ¬ k = "instance_node" →
        lookupD (readNode n) k = some (encDec v)) ∧
      lookupD (readNode n) "instance_node" = some (.vstr "node") :=
  imprint_read_roundtrip "node" [("a", PyValue.vint 5)]
    (by decide) (by decide) (List.cons_ne_nil _ _)

/-- C1 counterexample to the literal claim: imprinting the integer value
`a = 5` and decoding yields the *string* `"5"`, not the integer `5`. -/
theorem imprint_read_roundtrip_cex :
    findNode (imprint [⟨"node", []⟩] "node" [("a", PyValue.vint 5)]).2 "node"
      = some ⟨"node", [("a", "5")]⟩ ∧
    lookupD (readNode ⟨"node", [("a", "5")]⟩) "a" = some (.vstr "5") ∧
    ¬ lookupD (readNode ⟨"node", [("a", "5")]⟩) "a" = some (.vint 5) := by
  refine ⟨rfl, rfl, ?_⟩
  intro h
  have h2 := Option.some.inj
    ((rfl : lookupD (readNode ⟨"node", [("a", "5")]⟩) "a"
      = some (PyValue.vstr "5")).symm.trans h)
  exact PyValue.noConfusion h2

theorem jsonMarked_destruct {v : List Char} (h : jsonMarked v = true) :
    ∃ r, v = "JSON::".data ++ r := by
  have h2 : "JSON::".data <+: v := by
    rw [← List.isPrefixOf_iff_prefix]
    exact h
  obtain ⟨r, hr⟩ := h2
  exact ⟨r, hr.symm⟩

/-- C2: corrected error handling of a JSON-marked value that fails to parse:
the line is NOT dropped — `read` swallows the parse failure and keeps the raw
stripped text (marker included) as the string value of that key, and the rest
of the decode proceeds normally. -/
theorem malformed_json_line_kept (d : List (String × PyValue)) (k : String)
    (hk : cleanKey k) (r : List Char)
    (hv : ∀ c ∈ ("JSON::".data ++ r), ¬ c = '=')
    (hstrip : stripC ("JSON::".data ++ r) = "JSON::".data ++ r)
    (hfail : loadsChars r = none) :
    readLine d (k.data ++ '=' :: ("JSON::".data ++ r))
      = dictInsert d k (.vstr ⟨"JSON::".data ++ r⟩) := by
  have hdec : decodeText ("JSON::".data ++ r) = .vstr ⟨"JSON::".data ++ r⟩ := by
    unfold decodeText
    rw [hstrip]
    have hm : jsonMarked ('J' :: 'S' :: 'O' :: 'N' :: ':' :: ':' :: r) = true :=
      jsonMarked_self_append r
    have hdrop : List.drop JSON_PREFIX.length
        ('J' :: 'S' :: 'O' :: 'N' :: ':' :: ':' :: r) = r :=
      List.drop_left "JSON::".data r
    have hne_t : ¬ (String.mk ('J' :: 'S' :: 'O' :: 'N' :: ':' :: ':' :: r))
        = "true" := by
      intro he
      have h3 : 'J' :: 'S' :: 'O' :: 'N' :: ':' :: ':' :: r = "true".data :=
        congrArg String.data he
      have h4 : 'J' = 't' := by injection h3
      exact absurd h4 (by decide)
    have hne_f : ¬ (String.mk ('J' :: 'S' :: 'O' :: 'N' :: ':' :: ':' :: r))
        = "false" := by
      intro he
      have h3 : 'J' :: 'S' :: 'O' :: 'N' :: ':' :: ':' :: r = "false".data :=
        congrArg String.data he
      have h4 : 'J' = 'f' := by injection h3
      exact absurd h4 (by decide)
    simp [jsonStep, hm, hdrop, hfail, coerceBool, isStrLit, hne_t, hne_f]
  have h5 := readLine_entry d k ⟨"JSON::".data ++ r⟩ hk hv
  exact h5.trans (congrArg (dictInsert d k) hdec)

/-- C2 witness: the malformed line `key=JSON::\x7boops` keeps the raw text
as the value of `key`. -/
theorem malformed_json_line_kept_witness :
    readLine [] ("key".data ++ '=' :: ("JSON::".data ++ "\x7boops".data))
      = dictInsert [] "key" (.vstr ⟨"JSON::".data ++ "\x7boops".data⟩) :=
  malformed_json_line_kept [] "key" (by decide) "\x7boops".data
    (by decide) (by decide) rfl

/-- C2 counterexample to the literal claim: the key of a malformed
JSON-marked line is present in the decoded mapping (with the raw text), not
dropped, and a later well-formed line still decodes. -/
theorem malformed_json_line_kept_cex :
    lookupD (readBuf "key=JSON::\x7boops\r\ngood=1" "node") "key"
      = some (.vstr "JSON::\x7boops") ∧
    lookupD (readBuf "key=JSON::\x7boops\r\ngood=1" "node") "good"
      = some (.vstr "1") := ⟨rfl, rfl⟩

/-- C3: corrected synthesis of `instance_node`: for a non-empty property
buffer the decoded mapping always binds `instance_node` to the container's
own name (overriding any same-named key from the buffer), but an empty buffer
short-circuits to the empty mapping with NO `instance_node` key, contrary to
the claim's "including one whose property buffer is empty". -/
theorem instance_node_synthesized (props nm : String) (h : ¬ props = "") :
    lookupD (readBuf props nm) "instance_node" = some (.vstr nm) ∧
    readBuf "" nm = [] := by
  constructor
  · unfold readBuf
    rw [if_neg h, lookupD_dictInsert_same]
  · rfl

/-- C3 witness: a buffer that itself binds `instance_node` is overridden by
the synthesized value. -/
theorem instance_node_synthesized_witness :
    lookupD (readBuf "instance_node=fake" "node") "instance_node"
      = some (.vstr "node") ∧
    readBuf "" "node" = [] :=
  instance_node_synthesized "instance_node=fake" "node" (by decide)

/-- C3 counterexample to the literal claim: with an empty property buffer the
decoded mapping has no `instance_node` key at all. -/
theorem instance_node_synthesized_cex :
    lookupD (readBuf "" "node") "instance_node" = none := rfl

/-- C6: `imprint` on a missing node returns `false` and leaves the scene
(hence every node's property buffer) unchanged; on an existing node it
returns `true`.  The model is a total function: returning `false` is the
only failure signal, there is no exception path. -/
theorem imprint_error_signal (scene : List MaxNode) (nm : String)
    (data : List (String × PyValue)) :
    (findNode scene nm = none → imprint scene nm data = (false, scene)) ∧
    (∀ n, findNode scene nm = some n → (imprint scene nm data).1 = true) := by
  constructor
  · intro h
    unfold imprint
    rw [h]
  · intro n h
    unfold imprint
    rw [h]

/-- C6 witness: the missing-node case on the empty scene and the
existing-node case on a one-node scene. -/
theorem imprint_error_signal_witness :
    imprint ([] : List MaxNode) "n" [] = (false, []) ∧
    (imprint [(⟨"n", []⟩ : MaxNode)] "n" []).1 = true :=
  ⟨(imprint_error_signal [] "n" []).1 rfl,
   (imprint_error_signal [⟨"n", []⟩] "n" []).2 ⟨"n", []⟩ rfl⟩

/-- C7: `imprint` merges rather than replaces: a key of `data` ends up
holding its newly rendered value, every key not named in `data` keeps its
previous buffer value, and concretely encoding `a = 1` then `b = 2` onto the
same node and decoding yields both `a` and `b` present. -/
theorem imprint_merge (ps : List (String × String)) (M : List (String × PyValue))
    (k : String) :
    (∀ v, (k, v) ∈ M → (M.map Prod.fst).Nodup →
      lookupS (imprintProps ps M) k = some (renderVal v)) ∧
    ((∀ p ∈ M, ¬ p.1 = k) → lookupS (imprintProps ps M) k = lookupS ps k) ∧
    (lookupD (readNode ⟨"n", imprintProps
        (imprintProps [] [("a", PyValue.vint 1)]) [("b", PyValue.vint 2)]⟩)
      "a").isSome = true ∧
    (lookupD (readNode ⟨"n", imprintProps
        (imprintProps [] [("a", PyValue.vint 1)]) [("b", PyValue.vint 2)]⟩)
      "b").isSome = true :=
  ⟨fun v hmem hnd => imprintProps_hit M ps k v hmem hnd,
   fun h => imprintProps_frame M ps k h, rfl, rfl⟩

/-- C7 witness: overwrite of an existing key and preservation of an
untouched key on a concrete store. -/
theorem imprint_merge_witness :
    lookupS (imprintProps [("x", "old"), ("a", "keep")] [("a", PyValue.vint 7)])
      "a" = some (renderVal (PyValue.vint 7)) ∧
    lookupS (imprintProps [("x", "old"), ("a", "keep")] [("a", PyValue.vint 7)])
      "x" = lookupS [("x", "old"), ("a", "keep")] "x" :=
  ⟨(imprint_merge [("x", "old"), ("a", "keep")] [("a", PyValue.vint 7)] "a").1
      (PyValue.vint 7) (List.mem_cons_self _ _) (by decide),
   (imprint_merge [("x", "old"), ("a", "keep")] [("a", PyValue.vint 7)] "x").2.1
      (by decide)⟩

mutual

theorem preorder_length : ∀ root : SceneNode,
    (preorder root).length = sizeN root
  | .mk nm ps cs => by
    show (SceneNode.mk nm ps cs :: preorderList cs).length = 1 + sizeNList cs
    rw [List.length_cons, preorderList_length cs]
    omega

theorem preorderList_length : ∀ cs : List SceneNode,
    (preorderList cs).length = sizeNList cs
  | [] => rfl
  | c :: cs => by
    show (preorder c ++ preorderList cs).length = sizeN c + sizeNList cs
    rw [List.length_append, preorder_length c, preorderList_length cs]

end

/-- C8: corrected scanner behaviour.  `lsattr` filters the pre-order
traversal of the subtree (whose length is the subtree's node count, so every
node is visited exactly once, and the model mutates nothing): an explicit
non-empty `value` selects exact attribute equality, an omitted `value`
selects truthiness — but, contrary to the claim, a *provided empty string*
`value` also falls into the truthiness branch (Python `if value:`), not the
equality branch; and when the equality filter matches nothing the result is
the empty list, never an error. -/
theorem lsattr_spec (attr : String) (root : SceneNode) :
    (∀ v, ¬ v = "" → lsattr attr (some v) root
      = (preorder root).filter (fun n => getUserProp n attr == some v)) ∧
    (lsattr attr none root
      = (preorder root).filter (fun n => truthyProp n attr)) ∧
    (lsattr attr (some "") root
      = (preorder root).filter (fun n => truthyProp n attr)) ∧
    ((preorder root).length = sizeN root) ∧
    (∀ v, ¬ v = "" →
      (∀ n ∈ preorder root, (getUserProp n attr == some v) = false) →
      lsattr attr (some v) root = []) := by
  refine ⟨?_, rfl, ?_, preorder_length root, ?_⟩
  · intro v hv
    show (if v = "" then (preorder root).filter (fun n => truthyProp n attr)
      else (preorder root).filter (fun n => getUserProp n attr == some v))
      = (preorder root).filter (fun n => getUserProp n attr == some v)
    rw [if_neg hv]
  · show (if ("" : String) = "" then
        (preorder root).filter (fun n => truthyProp n attr)
      else (preorder root).filter (fun n => getUserProp n attr == some ""))
      = (preorder root).filter (fun n => truthyProp n attr)
    rw [if_pos rfl]
  · intro v hv hnone
    show (if v = "" then (preorder root).filter (fun n => truthyProp n attr)
      else (preorder root).filter (fun n => getUserProp n attr == some v)) = []
    rw [if_neg hv]
    exact List.filter_eq_nil_iff.mpr
      (fun n hn => by rw [hnone n hn]; exact Bool.false_ne_true)

/-- C8 witness: the exact-equality branch on a two-node tree keeps only the
matching child. -/
theorem lsattr_spec_witness :
    lsattr "a" (some "x")
      (SceneNode.mk "root" [] [SceneNode.mk "c1" [("a", "x")] []])
      = [SceneNode.mk "c1" [("a", "x")] []] := by
  have h := (lsattr_spec "a"
    (SceneNode.mk "root" [] [SceneNode.mk "c1" [("a", "x")] []])).1 "x" (by decide)
  rw [h]
  rfl

/-- C8 counterexample to the literal claim: with the empty string provided as
`matchValue`, a node whose attribute holds `"bar"` (which does not equal the
empty string) is nevertheless returned, because the empty string is falsy in
Python and selects the truthiness branch. -/
theorem lsattr_spec_cex :
    lsattr "foo" (some "") (SceneNode.mk "n" [("foo", "bar")] [])
      = [SceneNode.mk "n" [("foo", "bar")] []] ∧
    (preorder (SceneNode.mk "n" [("foo", "bar")] [])).filter
      (fun n => getUserProp n "foo" == some "") = [] := ⟨rfl, rfl⟩

theorem findNs_least : ∀ (fuel : Nat) (ex : String → Bool)
    (pfx leaf sfx con st en : String) (fmt : Nat → String) (i j : Nat),
    i ≤ j → j < i + fuel →
    ex (nsProbe pfx leaf sfx con fmt j) = false →
    (∀ m, i ≤ m → m < j → ex (nsProbe pfx leaf sfx con fmt m) = true) →
    findNs ex pfx leaf sfx con st en fmt i fuel
      = some (st ++ (pfx ++ (leaf ++ fmt j) ++ sfx) ++ en)
  | 0, ex, pfx, leaf, sfx, con, st, en, fmt, i, j, hij, hlt, _, _ => by omega
  | fuel + 1, ex, pfx, leaf, sfx, con, st, en, fmt, i, j, hij, hlt, hex, hmin => by
    show (if ex ((pfx ++ (leaf ++ fmt i) ++ sfx) ++ ":" ++ leaf ++ con) then
        findNs ex pfx leaf sfx con st en fmt (i + 1) fuel
      else some (st ++ (pfx ++ (leaf ++ fmt i) ++ sfx) ++ en))
      = some (st ++ (pfx ++ (leaf ++ fmt j) ++ sfx) ++ en)
    by_cases heq : i = j
    · subst heq
      rw [show ex ((pfx ++ (leaf ++ fmt i) ++ sfx) ++ ":" ++ leaf ++ con)
          = false from hex]
      rfl
    · have hlt2 : i < j := Nat.lt_of_le_of_ne hij heq
      rw [show ex ((pfx ++ (leaf ++ fmt i) ++ sfx) ++ ":" ++ leaf ++ con)
          = true from hmin i (Nat.le_refl i) hlt2]
      show findNs ex pfx leaf sfx con st en fmt (i + 1) fuel = _
      exact findNs_least fuel ex pfx leaf sfx con st en fmt (i + 1) j hlt2
        (by omega) hex (fun m hm1 hm2 => hmin m (by omega) hm2)

theorem findNs_sound : ∀ (fuel : Nat) (ex : String → Bool)
    (pfx leaf sfx con st en : String) (fmt : Nat → String) (i : Nat) (r : String),
    findNs ex pfx leaf sfx con st en fmt i fuel = some r →
    ∃ j, i ≤ j ∧ ex (nsProbe pfx leaf sfx con fmt j) = false ∧
      r = st ++ (pfx ++ (leaf ++ fmt j) ++ sfx) ++ en
  | 0, ex, pfx, leaf, sfx, con, st, en, fmt, i, r, h => by
    exact absurd h (by simp [findNs])
  | fuel + 1, ex, pfx, leaf, sfx, con, st, en, fmt, i, r, h => by
    have h2 : (if ex ((pfx ++ (leaf ++ fmt i) ++ sfx) ++ ":" ++ leaf ++ con) then
        findNs ex pfx leaf sfx con st en fmt (i + 1) fuel
      else some (st ++ (pfx ++ (leaf ++ fmt i) ++ sfx) ++ en)) = some r := h
    by_cases hc : ex ((pfx ++ (leaf ++ fmt i) ++ sfx) ++ ":" ++ leaf ++ con) = true
    · rw [if_pos hc] at h2
      obtain ⟨j, hj1, hj2, hj3⟩ :=
        findNs_sound fuel ex pfx leaf sfx con st en fmt (i + 1) r h2
      exact ⟨j, by omega, hj2, hj3⟩
    · have hc2 : ex ((pfx ++ (leaf ++ fmt i) ++ sfx) ++ ":" ++ leaf ++ con)
          = false := by
        cases h3 : ex ((pfx ++ (leaf ++ fmt i) ++ sfx) ++ ":" ++ leaf ++ con) with
        | false => rfl
        | true => exact absurd h3 hc
      rw [if_neg (by rw [hc2]; exact Bool.false_ne_true)] at h2
      exact ⟨i, Nat.le_refl i, hc2, (Option.some.inj h2).symm⟩

/-- C4: `unique_namespace` returns the candidate built from the lowest
iteration `j ≥ 1` whose probe container name
`f"\x7bunique\x7d:\x7bnamespace\x7d\x7bcon_suffix\x7d"` names no existing
node, and the returned string is `start ++ unique ++ end` with the retained
colons and verbatim parents around the renumbered last segment. -/
theorem unique_namespace_least (ex : String → Bool) (ns : String)
    (fmt : Nat → String) (pfx sfx con : String) (fuel j : Nat)
    (h1 : 1 ≤ j) (h2 : j < 1 + fuel)
    (hex : ex (nsProbe pfx (lastSegment ns) sfx con fmt j) = false)
    (hmin : ∀ m, 1 ≤ m → m < j →
      ex (nsProbe pfx (lastSegment ns) sfx con fmt m) = true) :
    unique_namespace ex ns fmt pfx sfx con fuel
      = some ((colonStart ns ++ parentsPart ns)
          ++ (pfx ++ (lastSegment ns ++ fmt j) ++ sfx) ++ colonEnd ns) :=
  findNs_least fuel ex pfx (lastSegment ns) sfx con
    (colonStart ns ++ parentsPart ns) (colonEnd ns) fmt 1 j h1 h2 hex hmin

/-- C4 witness: with master containers `bar01:barCON` and `bar02:barCON`
existing, `unique_namespace` on `"bar"` with `"%02d"` formatting allocates
suffix `03`, returning `"bar03"`. -/
theorem unique_namespace_least_witness :
    unique_namespace (fun s => s == "bar01:barCON" || s == "bar02:barCON")
      "bar" fmt02 "" "" "CON" 5 = some "bar03" :=
  (unique_namespace_least (fun s => s == "bar01:barCON" || s == "bar02:barCON")
    "bar" fmt02 "" "" "CON" 5 3 (by decide) (by decide) rfl
    (by
      intro m hm1 hm2
      interval_cases m
      · rfl
      · rfl)).trans rfl

/-- C5: corrected collision guarantee.  When `unique_namespace` returns a
namespace it has the shape `start ++ unique_j ++ end` for some iteration
`j ≥ 1` whose *probe* name
`f"\x7bunique\x7d:\x7bnamespace\x7d\x7bcon_suffix\x7d"` names no existing
node — the guarantee is about that probe, not about
`f"\x7bresult\x7d\x7bcontainerSuffix\x7d"` as claimed — and the parent
segments (with the retained colons) are carried through verbatim as an
unmodified prefix of the result. -/
theorem unique_namespace_sound (ex : String → Bool) (ns : String)
    (fmt : Nat → String) (pfx sfx con : String) (fuel : Nat) (r : String)
    (h : unique_namespace ex ns fmt pfx sfx con fuel = some r) :
    ∃ j, 1 ≤ j ∧
      ex ((pfx ++ (lastSegment ns ++ fmt j) ++ sfx) ++ ":"
        ++ lastSegment ns ++ con) = false ∧
      r = (colonStart ns ++ parentsPart ns)
        ++ (pfx ++ (lastSegment ns ++ fmt j) ++ sfx) ++ colonEnd ns :=
  findNs_sound fuel ex pfx (lastSegment ns) sfx con
    (colonStart ns ++ parentsPart ns) (colonEnd ns) fmt 1 r h

/-- C5 witness: a successful allocation on the nested namespace `:a:x`
(nothing exists), exhibiting the probe-free iteration and the verbatim
parent prefix. -/
theorem unique_namespace_sound_witness :
    ∃ j, 1 ≤ j ∧
      (fun _ => false) (("" ++ (lastSegment ":a:x" ++ fmt02 j) ++ "") ++ ":"
        ++ lastSegment ":a:x" ++ "CON") = false ∧
      ":a:x01" = (colonStart ":a:x" ++ parentsPart ":a:x")
        ++ ("" ++ (lastSegment ":a:x" ++ fmt02 j) ++ "") ++ colonEnd ":a:x" :=
  unique_namespace_sound (fun _ => false) ":a:x" fmt02 "" "" "CON" 1 ":a:x01" rfl

/-- C5 counterexample to the literal claim: with a node named `bar01CON`
existing, the allocator still returns `"bar01"`, because its probe is
`bar01:barCON`, not `result ++ containerSuffix`; the derived name
`"bar01" ++ "CON"` therefore DOES collide with an existing node. -/
theorem unique_namespace_sound_cex :
    unique_namespace (fun s => s == "bar01CON") "bar" fmt02 "" "" "CON" 3
      = some "bar01" ∧
    (fun s => s == "bar01CON") ("bar01" ++ "CON") = true := ⟨rfl, rfl⟩

/-- C9: `get_namespace` fails hard (a `RuntimeError` in the source, the
`Except.error` branch here) exactly when no node carries the container name;
on an existing node it returns the raw `namespace` and `name` user
properties verbatim, as the pair `(namespace, name)`, with no further
decoding. -/
theorem get_namespace_spec (scene : List MaxNode) (cn : String) :
    (findNode scene cn = none ↔
      get_namespace scene cn = .error "Master Container Not Found..") ∧
    (∀ n, findNode scene cn = some n →
      get_namespace scene cn
        = .ok (lookupS n.props "namespace", lookupS n.props "name")) := by
  constructor
  · constructor
    · intro h
      unfold get_namespace
      rw [h]
    · intro h
      cases hf : findNode scene cn with
      | none => rfl
      | some n =>
        have h2 : get_namespace scene cn
            = .ok (lookupS n.props "namespace", lookupS n.props "name") := by
          unfold get_namespace
          rw [hf]
          rfl
        rw [h2] at h
        exact Except.noConfusion h
  · intro n h
    unfold get_namespace
    rw [h]
    rfl

/-- C9 witness: the error case on the empty scene and the verbatim read on a
node carrying raw `namespace` / `name` properties. -/
theorem get_namespace_spec_witness :
    get_namespace ([] : List MaxNode) "c"
      = .error "Master Container Not Found.." ∧
    get_namespace [(⟨"c", [("namespace", "ns01:"), ("name", "model")]⟩ : MaxNode)]
      "c" = .ok (some "ns01:", some "model") := by
  constructor
  · exact (get_namespace_spec [] "c").1.mp rfl
  · exact ((get_namespace_spec
      [(⟨"c", [("namespace", "ns01:"), ("name", "model")]⟩ : MaxNode)] "c").2
      ⟨"c", [("namespace", "ns01:"), ("name", "model")]⟩ rfl).trans rfl

/-- C10: the boolean-literal coercion runs after JSON decoding, not instead
of it: a line whose value text is `JSON::"true"` decodes — through the JSON
layer, which yields the *string* `true` — to the boolean `true` for that key,
and symmetrically for `false`. -/
theorem read_json_bool_line (d : List (String × PyValue)) (k : String)
    (hk : cleanKey k) :
    readLine d (entryLine (k, "JSON::\"true\""))
      = dictInsert d k (.vbool true) ∧
    readLine d (entryLine (k, "JSON::\"false\""))
      = dictInsert d k (.vbool false) := by
  constructor
  · rw [readLine_entry d k "JSON::\"true\"" hk (by decide)]
    rfl
  · rw [readLine_entry d k "JSON::\"false\"" hk (by decide)]
    rfl

/-- C10 witness: the coercion on the concrete key `key` over the empty
mapping. -/
theorem read_json_bool_line_witness :
    readLine [] (entryLine ("key", "JSON::\"true\""))
      = dictInsert [] "key" (.vbool true) ∧
    readLine [] (entryLine ("key", "JSON::\"false\""))
      = dictInsert [] "key" (.vbool false) :=
  read_json_bool_line [] "key" (by decide)

end MaxLib
